import Mathlib

/-!
Verification development for the PiTextReader correction-learning pipeline
(`pp6.py`, `learn.py`, `train.py`).

The Python sources are shallowly embedded as executable Lean definitions:

* strings are modelled as Lean `String` / `List Char` (the texts handled by
  the device are ASCII; character classes such as `\w` and `\s` are modelled
  by their ASCII meaning);
* `re.sub` / `re.search` are modelled by a small substitution engine over a
  regex AST covering exactly the constructs appearing in the source patterns
  (literals, `\d`, `\s`, character sets, `+`, `*`, `?`, groups, `\b`,
  group references in templates), with a parser from the pattern strings
  that fails (`none`) on malformed patterns such as an unterminated group;
* `difflib.SequenceMatcher` is modelled by its documented semantics: the
  longest matching block, earliest in `a` then earliest in `b`, with the
  `autojunk` "popular element" rule applied when the second sequence has at
  least 200 elements, recursing on both gaps, merging adjacent blocks and
  classifying the gaps as replace/delete/insert opcodes;
* file-system side effects (reading `/tmp/text.txt`, writing JSON records)
  are made explicit: the functions take the data that the Python code reads
  and return the record and path that it writes.

Recursions that are not structural use an explicit fuel argument, always
called with enough fuel for the input; this keeps every definition
kernel-executable.
-/

set_option maxRecDepth 20000
set_option maxHeartbeats 1000000

/-! ## Basic character classes (ASCII model of Python `\w`, `\s`) -/

/-- Python `\s` on ASCII: space, tab, newline, carriage return, vertical tab,
form feed. -/
def pyIsSpace (c : Char) : Bool :=
  c = ' ' || c = '\t' || c = '\n' || c = '\r' || c = '\x0b' || c = '\x0c'

/-- Python `\w` on ASCII: letters, digits, underscore. -/
def pyIsWord (c : Char) : Bool :=
  ('a' ≤ c && c ≤ 'z') || ('A' ≤ c && c ≤ 'Z') || ('0' ≤ c && c ≤ '9') || c = '_'

/-- Python `\d` on ASCII. -/
def pyIsDigit (c : Char) : Bool := '0' ≤ c && c ≤ '9'

/-- `\w`-ness of an optional character; the edge of the text counts as
non-word, exactly as for Python's `\b`. -/
def pyIsWordOpt : Option Char → Bool
  | none => false
  | some c => pyIsWord c

/-! ## Python string helpers used by the sources -/

/-- `str.split()` with no argument: split on runs of whitespace, discarding
empty tokens (fuelled; `pySplit` supplies sufficient fuel). -/
def pySplitGo : Nat → List Char → List (List Char)
  | 0, _ => []
  | _ + 1, [] => []
  | fuel + 1, c :: cs =>
    if pyIsSpace c then pySplitGo fuel cs
    else
      let tok := List.takeWhile (fun x => !pyIsSpace x) (c :: cs)
      let rest := List.dropWhile (fun x => !pyIsSpace x) (c :: cs)
      tok :: pySplitGo fuel rest

/-- Python `text.split()`. -/
def pySplit (s : String) : List String :=
  (pySplitGo (s.data.length + 1) s.data).map fun l => String.mk l

/-- Contiguous-sublist test (helper for Python's `needle in hay`). -/
def listContains (needle : List Char) : List Char → Bool
  | [] => needle.isEmpty
  | c :: cs => needle.isPrefixOf (c :: cs) || listContains needle cs

/-- Python `needle in hay` for strings (substring test). -/
def pyInStr (needle hay : String) : Bool :=
  listContains needle.data hay.data

/-- Python `text.strip()`: remove leading and trailing whitespace. -/
def pyStrip (s : String) : String :=
  String.mk (((s.data.dropWhile pyIsSpace).reverse.dropWhile pyIsSpace).reverse)

/-- Python `str.lower()` (ASCII model). -/
def pyLower (s : String) : String :=
  String.mk (s.data.map fun c => if 'A' ≤ c && c ≤ 'Z' then Char.ofNat (c.toNat + 32) else c)

/-- Python `text.replace(old, new)`: replace every non-overlapping occurrence
left to right (fuelled; `pyStrReplace` supplies sufficient fuel).  `old` is
never empty in the source. -/
def pyStrReplaceGo (old new : List Char) : Nat → List Char → List Char
  | 0, cs => cs
  | _ + 1, [] => []
  | fuel + 1, c :: cs =>
    if !old.isEmpty && old.isPrefixOf (c :: cs) then
      new ++ pyStrReplaceGo old new fuel ((c :: cs).drop old.length)
    else
      c :: pyStrReplaceGo old new fuel cs

/-- Python `text.replace(old, new)`. -/
def pyStrReplace (old new text : String) : String :=
  String.mk (pyStrReplaceGo old.data new.data (text.data.length + 1) text.data)

/-- Decimal rendering of a natural number, one digit per character
(fuelled; models Python's `str(int)` / f-string formatting of the
nonnegative `int(time.time())`). -/
def pyDigitChar : Nat → Char
  | 0 => '0' | 1 => '1' | 2 => '2' | 3 => '3' | 4 => '4'
  | 5 => '5' | 6 => '6' | 7 => '7' | 8 => '8' | 9 => '9'
  | _ + 10 => '*'

/-- Little-endian decimal digit list of `n` (`n = 0` gives `[]`). -/
def pyDigitsRev : Nat → Nat → List Nat
  | 0, _ => []
  | _ + 1, 0 => []
  | fuel + 1, n + 1 => (n + 1) % 10 :: pyDigitsRev fuel ((n + 1) / 10)

/-- Python `str(n)` for a nonnegative integer `n`. -/
def pyDecimal (n : Nat) : String :=
  if n = 0 then "0"
  else String.mk (((pyDigitsRev (n + 1) n).map pyDigitChar).reverse)

/-! ## Data model: training samples and the correction rule set -/

/-- One persisted training sample (`save_training_sample` metadata record in
`pp6.py`; the same five JSON fields are read by `learn.py` and `train.py`).
Records written by the capture pipeline always carry all five fields, so the
fields are total here; the `.get(...)` defaults in `learn.py`/`train.py` only
guard malformed records. -/
structure Sample where
  id : String
  timestamp : Nat
  ocr_text : String
  corrected_text : String
  image_path : String
deriving DecidableEq, Repr

/-- One entry of `pattern_fixes` (a `{pattern, replacement, description}`
JSON object). -/
structure PatternFix where
  pattern : String
  replacement : String
  description : String
deriving DecidableEq, Repr

/-- The persisted correction rule set (`learned_corrections.json`).
`word_replacements` and `context_corrections` are Python dicts, modelled as
insertion-ordered association lists. -/
structure Corrections where
  word_replacements : List (String × String)
  pattern_fixes : List PatternFix
  context_corrections : List (String × String)
deriving DecidableEq, Repr

/-- The initial global `learned_corrections` value in `pp6.py`. -/
def emptyCorrections : Corrections :=
  { word_replacements := [], pattern_fixes := [], context_corrections := [] }

/-! ## `pp6.py` `save_training_sample` (the capture-pipeline store writer) -/

/-- `TRAINING_DATA_DIR` in `pp6.py`. -/
def TRAINING_DATA_DIR : String := "/home/admin/pi/corrections/training_data"

/-- `sample_id = f"sample_{timestamp}"`. -/
def mkSampleId (timestamp : Nat) : String :=
  "sample_" ++ pyDecimal timestamp

/-- `save_training_sample(image_path, ocr_text)` at a moment where
`int(time.time())` is `timestamp`: the metadata record it writes, together
with the metadata file path and the image destination path.  Writing is an
unconditional overwrite of those paths. -/
def saveTrainingSample (timestamp : Nat) (ocr_text : String) :
    Sample × String × String :=
  let sample_id := mkSampleId timestamp
  let image_dest := TRAINING_DATA_DIR ++ "/" ++ sample_id ++ ".jpg"
  let metadata_path := TRAINING_DATA_DIR ++ "/" ++ sample_id ++ ".json"
  ({ id := sample_id
     timestamp := timestamp
     ocr_text := ocr_text
     corrected_text := ocr_text
     image_path := image_dest }, metadata_path, image_dest)

/-! ## `train.py`: the correction UI's per-sample step -/

/-- One iteration of the correction loop in `train.py` `main`, given the
loaded sample and the raw line typed by the user: `none` when nothing is
saved (`q` quits, `s` skips), otherwise the record passed to `save_sample`.
`save_sample` persists exactly the five canonical fields of its argument. -/
def trainStep (s : Sample) (rawInput : String) : Option Sample :=
  if pyLower (pyStrip rawInput) = "q" then none
  else if pyLower (pyStrip rawInput) = "s" then none
  else if pyStrip rawInput = "" then
    -- `current_correction = sample.get('corrected_text', sample['ocr_text'])`
    some { s with corrected_text := s.corrected_text }
  else
    some { s with corrected_text := pyStrip rawInput }

/-! ## Injectivity of decimal rendering (for sample-id distinctness) -/

/-- Value of a little-endian digit list. -/
def ofDigitsRev : List Nat → Nat
  | [] => 0
  | d :: ds => d + 10 * ofDigitsRev ds

/-- Decimal value of a big-endian digit-character list (left inverse of the
rendering, used only to prove injectivity). -/
def decodeDec (l : List Char) : Nat :=
  l.foldl (fun acc c => acc * 10 + (c.toNat - '0'.toNat)) 0

/-! ## A small regex engine

Models `re.sub` / `re.search` for the pattern language actually occurring in
the sources: literal characters, escaped literals, `\d`, `\s`, character
sets `[..]`, the quantifiers `+` `*` `?` on single-character atoms, groups
of such atoms, the word-boundary assertion `\b`, and `\1`/`\g<n>` group
references in replacement templates.  `parsePat` returns `none` on a
malformed pattern (e.g. an unterminated group), modelling `re.error`. -/

/-- A single-character class. -/
inductive CharClass where
  | digit
  | space
  | oneOf (cs : List Char)
deriving DecidableEq, Repr

/-- Quantifier on a single-character atom. -/
inductive Quant where
  | one
  | plus
  | star
  | opt
deriving DecidableEq, Repr

/-- Quantified single-character atom. -/
structure RAtom where
  cls : CharClass
  q : Quant
deriving DecidableEq, Repr

/-- Pattern element: an atom, a capturing group of atoms, or `\b`. -/
inductive RElem where
  | atom (a : RAtom)
  | group (atoms : List RAtom)
  | wordB
deriving DecidableEq, Repr

def matchesClass (cl : CharClass) (c : Char) : Bool :=
  match cl with
  | .digit => pyIsDigit c
  | .space => pyIsSpace c
  | .oneOf cs => cs.contains c

/-- The ways one atom can match a prefix of `cs`, as `(consumed, rest)`
pairs in backtracking preference order (greedy: longest first). -/
def atomWays (a : RAtom) (cs : List Char) : List (List Char × List Char) :=
  let m := (cs.takeWhile (matchesClass a.cls)).length
  match a.q with
  | .one => if 1 ≤ m then [(cs.take 1, cs.drop 1)] else []
  | .plus => (List.range m).map (fun k => (cs.take (m - k), cs.drop (m - k)))
  | .star => (List.range (m + 1)).map (fun k => (cs.take (m - k), cs.drop (m - k)))
  | .opt => if 1 ≤ m then [(cs.take 1, cs.drop 1), ([], cs)] else [([], cs)]

/-- The ways an atom sequence can match a prefix of `cs`, in backtracking
preference order. -/
def matchAtoms : List RAtom → List Char → List (List Char × List Char)
  | [], cs => [([], cs)]
  | a :: as, cs =>
    (atomWays a cs).flatMap fun w =>
      (matchAtoms as w.2).map fun v => (w.1 ++ v.1, v.2)

/-- Last character of `consumed`, falling back to the previous character:
the character standing before the current scan position. -/
def lastCharOpt (consumed : List Char) (prev : Option Char) : Option Char :=
  match consumed.getLast? with
  | some c => some c
  | none => prev

/-- The ways an element sequence can match a prefix of `cs`, as
`(consumed, rest, captured groups in order)`, in backtracking preference
order; `prev` is the character just before the scan position (for `\b`). -/
def matchElems : List RElem → Option Char → List Char →
    List (List Char × List Char × List (List Char))
  | [], _, cs => [([], cs, [])]
  | .atom a :: es, prev, cs =>
    (atomWays a cs).flatMap fun w =>
      (matchElems es (lastCharOpt w.1 prev) w.2).map fun v => (w.1 ++ v.1, v.2.1, v.2.2)
  | .group as :: es, prev, cs =>
    (matchAtoms as cs).flatMap fun w =>
      (matchElems es (lastCharOpt w.1 prev) w.2).map fun v => (w.1 ++ v.1, v.2.1, w.1 :: v.2.2)
  | .wordB :: es, prev, cs =>
    if pyIsWordOpt prev != pyIsWordOpt cs.head? then matchElems es prev cs else []

/-- Replacement template part: literal character or group reference. -/
inductive ReplPart where
  | lit (c : Char)
  | ref (n : Nat)
deriving DecidableEq, Repr

/-- Instantiate a replacement template with the captured groups. -/
def instRepl (groups : List (List Char)) : List ReplPart → List Char
  | [] => []
  | .lit c :: ps => c :: instRepl groups ps
  | .ref n :: ps => groups.getD (n - 1) [] ++ instRepl groups ps

/-- Parse a replacement template (`\1`..`\9`, `\g<n>`, literals). -/
def parseReplGo : Nat → List Char → Option (List ReplPart)
  | 0, _ => none
  | _ + 1, [] => some []
  | fuel + 1, '\\' :: 'g' :: '<' :: d :: '>' :: rest =>
    if pyIsDigit d then
      (parseReplGo fuel rest).map fun ps => .ref (d.toNat - '0'.toNat) :: ps
    else none
  | fuel + 1, '\\' :: d :: rest =>
    if pyIsDigit d then
      (parseReplGo fuel rest).map fun ps => .ref (d.toNat - '0'.toNat) :: ps
    else if d = '\\' then
      (parseReplGo fuel rest).map fun ps => .lit '\\' :: ps
    else none
  | fuel + 1, c :: rest =>
    (parseReplGo fuel rest).map fun ps => .lit c :: ps

def parseRepl (rep : String) : Option (List ReplPart) :=
  parseReplGo (rep.data.length + 1) rep.data

/-- Parse the body of a `[...]` class up to the closing bracket. -/
def parseClassBody : List Char → Option (List Char × List Char)
  | [] => none
  | ']' :: rest => some ([], rest)
  | c :: rest => (parseClassBody rest).map fun w => (c :: w.1, w.2)

/-- A group may contain only quantified single-character atoms. -/
def elemsToAtoms : List RElem → Option (List RAtom)
  | [] => some []
  | .atom a :: es => (elemsToAtoms es).map fun as => a :: as
  | _ => none

/-- Attach a postfix quantifier to the element before it. -/
def applyQuant (e : RElem) (q : Quant) : Option RElem :=
  match e with
  | .atom ⟨cl, .one⟩ => some (.atom ⟨cl, q⟩)
  | _ => none

/-- Recursive-descent pattern parser; returns the parsed elements and the
rest of the input (which begins with `)` when a group closes).  `none`
models `re.error` on malformed input. -/
def parsePatGo : Nat → List Char → Option (List RElem × List Char)
  | 0, _ => none
  | _ + 1, [] => some ([], [])
  | fuel + 1, c :: rest =>
    if c = ')' then some ([], c :: rest)
    else if c = '+' || c = '*' || c = '?' then none
    else do
      let (e, rest1) ←
        (if c = '\\' then
          match rest with
          | [] => none
          | e :: r =>
            if e = 'd' then some (RElem.atom ⟨.digit, .one⟩, r)
            else if e = 's' then some (RElem.atom ⟨.space, .one⟩, r)
            else if e = 'b' then some (RElem.wordB, r)
            else if pyIsWord e then none
            else some (RElem.atom ⟨.oneOf [e], .one⟩, r)
        else if c = '[' then
          match parseClassBody rest with
          | none => none
          | some (cls, r) => some (RElem.atom ⟨.oneOf cls, .one⟩, r)
        else if c = '(' then
          match parsePatGo fuel rest with
          | none => none
          | some (inner, r) =>
            match r with
            | ')' :: r2 =>
              match elemsToAtoms inner with
              | some as => some (RElem.group as, r2)
              | none => none
            | _ => none
        else
          some (RElem.atom ⟨.oneOf [c], .one⟩, rest) : Option (RElem × List Char))
      let (e2, rest2) ←
        (match rest1 with
        | '+' :: r => (applyQuant e .plus).map fun x => (x, r)
        | '*' :: r => (applyQuant e .star).map fun x => (x, r)
        | '?' :: r => (applyQuant e .opt).map fun x => (x, r)
        | _ => some (e, rest1) : Option (RElem × List Char))
      match parsePatGo fuel rest2 with
      | none => none
      | some (es, restF) => some (e2 :: es, restF)

/-- Parse a whole pattern; a leftover `)` means an unbalanced pattern. -/
def parsePat (pat : String) : Option (List RElem) :=
  match parsePatGo (pat.data.length + 1) pat.data with
  | some (es, []) => some es
  | _ => none

/-- Global leftmost substitution scan (fuelled; one fuel unit per scan
step).  None of the patterns in the sources can match the empty string, so
an empty-width match is treated as no match at that position. -/
def reSubGo (p : List RElem) (rep : List ReplPart) : Nat → Option Char → List Char → List Char
  | 0, _, cs => cs
  | _ + 1, _, [] => []
  | fuel + 1, prev, c :: cs =>
    match (matchElems p prev (c :: cs)).head? with
    | some (consumed, rest, gs) =>
      if consumed.isEmpty then c :: reSubGo p rep fuel (some c) cs
      else instRepl gs rep ++ reSubGo p rep fuel (lastCharOpt consumed prev) rest
    | none => c :: reSubGo p rep fuel (some c) cs

/-- Python `re.sub(pat, rep, text)` for the patterns written literally in
the source code (all of which parse; the fallback branch is unreachable
for them). -/
def reSubStr (pat rep text : String) : String :=
  match parsePat pat, parseRepl rep with
  | some p, some r => String.mk (reSubGo p r (text.data.length + 1) none text.data)
  | _, _ => text

/-- Python `re.sub(pat, rep, text)` where a malformed pattern or template
raises `re.error`, modelled as `Except.error`. -/
def reSubE (pat rep text : String) : Except String String :=
  match parsePat pat with
  | none => .error ("re.error: bad pattern " ++ pat)
  | some p =>
    match parseRepl rep with
    | none => .error ("re.error: bad template " ++ rep)
    | some r => .ok (String.mk (reSubGo p r (text.data.length + 1) none text.data))

/-- Python `re.search(pat, text) is not None`. -/
def reSearchGo (p : List RElem) : Option Char → List Char → Bool
  | prev, [] => !(matchElems p prev []).isEmpty
  | prev, c :: cs => !(matchElems p prev (c :: cs)).isEmpty || reSearchGo p (some c) cs

def reSearch (pat text : String) : Bool :=
  match parsePat pat with
  | some p => reSearchGo p none text.data
  | none => false

/-! ## Word-boundary literal substitution

`apply_learned_corrections` performs
`re.sub(r'\b' + re.escape(wrong) + r'\b', right, text)`: a literal match of
`wrong` bracketed by two `\b` assertions.  `re.escape` only neutralises
metacharacters, so this is modelled directly as a scan for the literal with
Python's general `\b` condition on each side (`\b` holds where exactly one
neighbour is a word character, the text edges counting as non-word). -/

/-- Literal-with-boundaries substitution scan, parameterised by the two
boundary tests (fuelled; one fuel unit per step).  After a replacement the
scan resumes after the matched occurrence, the character standing before
the resumption point being the last character of the *matched* text. -/
def subLitGo (bs be : Option Char → Bool) (w r : List Char) :
    Nat → Option Char → List Char → List Char
  | 0, _, cs => cs
  | _ + 1, _, [] => []
  | fuel + 1, prev, c :: cs =>
    if !w.isEmpty && w.isPrefixOf (c :: cs) && bs prev && be (((c :: cs).drop w.length).head?) then
      r ++ subLitGo bs be w r fuel (lastCharOpt w prev) ((c :: cs).drop w.length)
    else
      c :: subLitGo bs be w r fuel (some c) cs

/-- `re.sub(r'\b' + re.escape(wrong) + r'\b', right, text)` on character
lists.  (For the empty `wrong`, which cannot arise from whitespace
tokenisation, the model performs no replacement.)  The replacement is
inserted verbatim: this is Python's literal fast path, exact whenever
`right` contains no backslash.  A `repl` containing a backslash is
processed by `re.sub` as a template instead — `\\\\` collapses to one
backslash, `\1` is a group reference (an `re.error` here, the pattern
has no groups) and an unknown letter escape such as `\b` is an
`re.error: bad escape` — so theorems about this function carry a
backslash-free hypothesis on `right` where they quantify over it. -/
def pySubWordData (w r t : List Char) : List Char :=
  subLitGo (fun prev => pyIsWordOpt prev != pyIsWordOpt w.head?)
    (fun nxt => pyIsWordOpt w.getLast? != pyIsWordOpt nxt)
    w r (t.length + 1) none t

def pySubWord (wrong right text : String) : String :=
  String.mk (pySubWordData wrong.data right.data text.data)

/-! ## `pp6.py` `apply_learned_corrections` and `cleanText` -/

/-- `apply_learned_corrections(text)` (`LEARNING_ENABLED` is `True` in the
source).  Word replacements are applied in dict order, then each
`pattern_fixes` entry in stored order; the loop has no per-rule exception
handling, so a malformed persisted pattern raises out of the whole pass
(`Except.error`), leaving the remaining rules unapplied. -/
def applyLearnedCorrections (lc : Corrections) (text : String) : Except String String := do
  let afterWords :=
    lc.word_replacements.foldl (fun t wr => pySubWord wr.1 wr.2 t) text
  lc.pattern_fixes.foldlM (fun t pf => reSubE pf.pattern pf.replacement t) afterWords

/-- The pure text transformation of `cleanText()` in `pp6.py`: basic
cleanup, learned corrections, spellcheck (the identity when the
spellchecker is not installed, `spell is None`), then the unconditional
standard cleanup passes.  File I/O is made explicit: the function maps the
text read from `/tmp/text.txt` to the text written back. -/
def cleanTextCore (lc : Corrections) (text0 : String) : Except String String := do
  let t := reSubStr "\\s+" " " text0
  let t := reSubStr "\\$\\s+" "$" t
  let t ← applyLearnedCorrections lc t
  let t := reSubStr "\\$[Oo]" "$0" t
  let t := reSubStr "\\$[lI]" "$1" t
  let t := reSubStr "(\\d)[Oo](\\d)" "\\1 0 \\2" t
  let t := reSubStr "(\\d)[lI](\\d)" "\\1 1 \\2" t
  let t := reSubStr "[Oo](\\d)" "0\\1" t
  let t := reSubStr "(\\d)[Oo]" "\\1 0" t
  let t := reSubStr "(\\d)\\s*:\\s*(\\d)" "\\1:\\2" t
  let t := reSubStr "(\\d)\\s*/\\s*(\\d)" "\\1/\\2" t
  let t := reSubStr "\\$(\\d+\\.?\\d*)" "\\1 dollars " t
  let t := pyStrReplace "%" " percent " t
  let t := pyStrReplace "&" " and " t
  let t := pyStrReplace "@" " at " t
  let t := pyStrReplace "#" " number " t
  let t := pyStrReplace "+" " plus " t
  let t := pyStrReplace "=" " equals " t
  let t := pyStrReplace "*" " times " t
  let t := pyStrReplace "°" " degrees " t
  pure (pyStrip (reSubStr "\\s+" " " t))

/-! ## The fixed pattern catalogue (`learn.py` patterns 1-4; `pp6.py` has
only the first three, the third with a different evidence test) -/

def qqPattern : PatternFix :=
  { pattern := "(\\d+)\\.qq\\b", replacement := "\\1.99",
    description := "qq at end of price -> 99" }

def dollarOPattern : PatternFix :=
  { pattern := "\\$[Oo]", replacement := "$0",
    description := "$O or $o -> $0" }

def lIPattern : PatternFix :=
  { pattern := "(\\d)[lI](\\d)", replacement := "\\g<1>1\\2",
    description := "l or I between numbers -> 1" }

def oZeroPattern : PatternFix :=
  { pattern := "(\\d)[Oo](\\d)", replacement := "\\g<1>0\\2",
    description := "O in numbers -> 0" }

/-! ## `difflib.SequenceMatcher` model

`SequenceMatcher(None, a, b)` is modelled by its documented semantics.
`find_longest_match` returns, among the matching blocks of maximal size
that contain no junk element of `b`, the one earliest in `a` and then
earliest in `b`, extended on both sides by equal neighbouring elements.
With `isjunk = None` the junk set `bjunk` is empty; the only junk comes
from the *autojunk* heuristic, which (when `len(b) >= 200`) treats as
"popular" every element occurring more than `len(b) // 100 + 1` times in
`b`.  The two junk-gated extension loops never fire because `bjunk` is
empty, while the two plain extension loops extend over any equal
neighbours (popular or not), exactly as in the CPython source. -/

section DifflibModel

variable {α : Type} [DecidableEq α]

/-- Autojunk popularity test (per element value). -/
def isPopular (b : List α) (x : α) : Bool :=
  b.length ≥ 200 && b.count x > b.length / 100 + 1

/-- Is `(i, j, s)` a matching block of `a`/`b` whose `b`-side contains no
junk element? -/
def runOk (junk : α → Bool) (a b : List α) (i j s : Nat) : Bool :=
  decide (i + s ≤ a.length) && decide (j + s ≤ b.length) &&
  decide ((a.drop i).take s = (b.drop j).take s) &&
  ((b.drop j).take s).all fun x => !junk x

/-- First `(i, j)` (in `i` then `j` order) carrying a junk-free matching
block of size `s`. -/
def findAtSize (junk : α → Bool) (a b : List α) (s : Nat) : Option (Nat × Nat) :=
  (List.range (a.length + 1)).findSome? fun i =>
    (List.range (b.length + 1)).findSome? fun j =>
      if runOk junk a b i j s then some (i, j) else none

/-- Longest junk-free matching block: maximal size, then earliest in `a`,
then earliest in `b`; `(0, 0, 0)` when there is none. -/
def findCore (junk : α → Bool) (a b : List α) : Nat × Nat × Nat :=
  match (List.range (min a.length b.length)).findSome? (fun k =>
      (findAtSize junk a b (min a.length b.length - k)).map
        fun ij => (ij.1, ij.2, min a.length b.length - k)) with
  | some r => r
  | none => (0, 0, 0)

/-- Extend a block leftwards while the neighbouring elements are equal
(fuelled; `bjunk` is empty for `SequenceMatcher(None, ...)`, so the
non-junk guard of the CPython loop is vacuous). -/
def extendLeft (a b : List α) : Nat → Nat × Nat × Nat → Nat × Nat × Nat
  | 0, r => r
  | fuel + 1, (i, j, s) =>
    if 1 ≤ i ∧ 1 ≤ j then
      match a[i - 1]?, b[j - 1]? with
      | some x, some y =>
        if x = y then extendLeft a b fuel (i - 1, j - 1, s + 1) else (i, j, s)
      | _, _ => (i, j, s)
    else (i, j, s)

/-- Extend a block rightwards while the neighbouring elements are equal. -/
def extendRight (a b : List α) : Nat → Nat × Nat × Nat → Nat × Nat × Nat
  | 0, r => r
  | fuel + 1, (i, j, s) =>
    match a[i + s]?, b[j + s]? with
    | some x, some y =>
      if x = y then extendRight a b fuel (i, j, s + 1) else (i, j, s)
    | _, _ => (i, j, s)

/-- `find_longest_match` over a whole region. -/
def findLongestMatch (junk : α → Bool) (a b : List α) : Nat × Nat × Nat :=
  extendRight a b (b.length + 1) (extendLeft a b (a.length + 1) (findCore junk a b))

/-- The recursive block collection of `get_matching_blocks` (fuelled): the
longest match splits the region, both gaps are processed recursively, and
the in-order traversal reproduces difflib's sorted queue output. -/
def matchingBlocksGo (junk : α → Bool) : Nat → List α → List α → List (Nat × Nat × Nat)
  | 0, _, _ => []
  | fuel + 1, a, b =>
    let (i, j, s) := findLongestMatch junk a b
    if s = 0 then []
    else
      matchingBlocksGo junk fuel (a.take i) (b.take j)
        ++ [(i, j, s)]
        ++ (matchingBlocksGo junk fuel (a.drop (i + s)) (b.drop (j + s))).map
            fun blk => (blk.1 + (i + s), blk.2.1 + (j + s), blk.2.2)

/-- difflib's merging of adjacent blocks in `get_matching_blocks`. -/
def mergeBlocksGo : Nat × Nat × Nat → List (Nat × Nat × Nat) → List (Nat × Nat × Nat)
  | (i1, j1, k1), [] => if k1 ≠ 0 then [(i1, j1, k1)] else []
  | (i1, j1, k1), (i2, j2, k2) :: rest =>
    if i1 + k1 = i2 ∧ j1 + k1 = j2 then mergeBlocksGo (i1, j1, k1 + k2) rest
    else (if k1 ≠ 0 then [(i1, j1, k1)] else []) ++ mergeBlocksGo (i2, j2, k2) rest

/-- `get_matching_blocks()`, including the `(len(a), len(b), 0)` sentinel. -/
def getMatchingBlocks (a b : List α) : List (Nat × Nat × Nat) :=
  mergeBlocksGo (0, 0, 0)
      (matchingBlocksGo (isPopular b) (a.length + b.length + 1) a b)
    ++ [(a.length, b.length, 0)]

/-- Opcode tags of `get_opcodes()`. -/
inductive OpTag where
  | replace
  | delete
  | insert
  | equal
deriving DecidableEq, Repr

/-- The cursor walk of `get_opcodes()`. -/
def getOpcodesGo : Nat → Nat → List (Nat × Nat × Nat) → List (OpTag × Nat × Nat × Nat × Nat)
  | _, _, [] => []
  | i, j, (ai, bj, size) :: rest =>
    (if i < ai ∧ j < bj then [(OpTag.replace, i, ai, j, bj)]
     else if i < ai then [(OpTag.delete, i, ai, j, bj)]
     else if j < bj then [(OpTag.insert, i, ai, j, bj)]
     else [])
      ++ (if size ≠ 0 then [(OpTag.equal, ai, ai + size, bj, bj + size)] else [])
      ++ getOpcodesGo (ai + size) (bj + size) rest

/-- `SequenceMatcher(None, a, b).get_opcodes()`. -/
def getOpcodes (a b : List α) : List (OpTag × Nat × Nat × Nat × Nat) :=
  getOpcodesGo 0 0 (getMatchingBlocks a b)

end DifflibModel

/-! ## The Diff-Based Mistake Extractor and the two Synthesizers -/

/-- The word-level substitution observations one sample contributes: the
per-sample body of `analyze_corrections` (`learn.py` lines 51-77); the
loop at `pp6.py` lines 212-235 is textually identical.  For every
`replace` opcode the OCR and corrected tokens of the region are paired
positionally; the pairing by `zip(range(i1,i2), range(j1,j2))` plus the
`i < len(...)` bounds guards is realised by zipping the two token slices. -/
def extractObservations (s : Sample) : List (String × String) :=
  if s.ocr_text = s.corrected_text then []
  else
    let ocr_words := pySplit s.ocr_text
    let correct_words := pySplit s.corrected_text
    (getOpcodes ocr_words correct_words).flatMap fun op =>
      match op with
      | (OpTag.replace, i1, i2, j1, j2) =>
        ((ocr_words.drop i1).take (i2 - i1)).zip ((correct_words.drop j1).take (j2 - j1))
      | _ => []

/-- `word_changes[wrong][right] += 1`, inner dict
(`defaultdict(int)`, insertion-ordered). -/
def bumpInner (right : String) : List (String × Nat) → List (String × Nat)
  | [] => [(right, 1)]
  | (r, c) :: rest =>
    if r = right then (r, c + 1) :: rest else (r, c) :: bumpInner right rest

/-- `word_changes[wrong][right] += 1`, outer dict. -/
def bumpOuter (wrong right : String) :
    List (String × List (String × Nat)) → List (String × List (String × Nat))
  | [] => [(wrong, [(right, 1)])]
  | (w, inner) :: rest =>
    if w = wrong then (w, bumpInner right inner) :: rest
    else (w, inner) :: bumpOuter wrong right rest

/-- `analyze_corrections(samples)` (`learn.py`): the `word_changes`
frequency table over the whole corpus. -/
def analyzeCorrections (samples : List Sample) : List (String × List (String × Nat)) :=
  samples.foldl
    (fun wc s => (extractObservations s).foldl (fun wc p => bumpOuter p.1 p.2 wc) wc) []

/-- Python `max(rights.items(), key=lambda x: x[1])`: the first entry in
iteration order achieving the maximal count (ties keep the earlier entry).
The inner dicts of `word_changes` are never empty, so the `[]` default is
unreachable. -/
def maxByCount (l : List (String × Nat)) : String × Nat :=
  match l with
  | [] => ("", 0)
  | p :: rest => rest.foldl (fun best x => if x.2 > best.2 then x else best) p

/-- The thresholded word-replacement loop (`learn.py` lines 94-100;
the loop at `pp6.py` lines 238-241 is textually identical, assigning into
an initially empty dict in `learn.py`). -/
def wordReplacementsOf (wc : List (String × List (String × Nat))) : List (String × String) :=
  wc.foldl
    (fun acc e =>
      if 2 ≤ (maxByCount e.2).2 then acc ++ [(e.1, (maxByCount e.2).1)] else acc) []

/-- Python dict assignment `d[k] = v` on an insertion-ordered association
list: overwrite in place, else append. -/
def setAssoc (k v : String) : List (String × String) → List (String × String)
  | [] => [(k, v)]
  | (k', v') :: rest =>
    if k' = k then (k', v) :: rest else (k', v') :: setAssoc k v rest

/-- `create_learned_corrections(word_changes, samples)` (`learn.py`):
word replacements with count at least 2, then the evidence-gated pattern
catalogue, appended in the source's order. -/
def createLearnedCorrections (word_changes : List (String × List (String × Nat)))
    (samples : List Sample) : Corrections :=
  { word_replacements := wordReplacementsOf word_changes
    pattern_fixes :=
      (if samples.any (fun s => pyInStr "qq" s.ocr_text && pyInStr "99" s.corrected_text)
       then [qqPattern] else [])
      ++ (if samples.any (fun s => pyInStr "$O" s.ocr_text || pyInStr "$o" s.ocr_text)
          then [dollarOPattern] else [])
      ++ (if samples.any (fun s =>
              reSearch "\\d[lI]\\d" s.ocr_text && reSearch "\\d1\\d" s.corrected_text)
          then [lIPattern] else [])
      ++ (if samples.any (fun s =>
              reSearch "\\dO\\d" s.ocr_text && reSearch "\\d0\\d" s.corrected_text)
          then [oZeroPattern] else [])
    context_corrections := [] }

/-- `learn_from_corrections()` (`pp6.py`), as a function of the samples
read from the training directory and the current global
`learned_corrections`; `none` models the `return False` path taken with
fewer than 5 samples.  Word replacements are assigned into the *existing*
dict; `pattern_fixes` is rebuilt from scratch (note: only three patterns,
and the third is gated on `\dl` / `\d1` instead of `\d[lI]\d` / `\d1\d`). -/
def learnFromCorrections (samples : List Sample) (lc : Corrections) : Option Corrections :=
  if samples.length < 5 then none
  else
    let word_changes := analyzeCorrections samples
    some
      { word_replacements :=
          word_changes.foldl
            (fun acc e =>
              if 2 ≤ (maxByCount e.2).2 then setAssoc e.1 (maxByCount e.2).1 acc else acc)
            lc.word_replacements
        pattern_fixes :=
          (if samples.any (fun s => pyInStr "qq" s.ocr_text && pyInStr "99" s.corrected_text)
           then [qqPattern] else [])
          ++ (if samples.any (fun s => pyInStr "$O" s.ocr_text || pyInStr "$o" s.ocr_text)
              then [dollarOPattern] else [])
          ++ (if samples.any (fun s =>
                  reSearch "\\dl" s.ocr_text && reSearch "\\d1" s.corrected_text)
              then [lIPattern] else [])
        context_corrections := lc.context_corrections }

/-! ## Run decomposition (theory for whole-word replacement)

A text decomposes into maximal runs of word characters separated by
non-word characters.  For a wrong word made of word characters, the
`\b`-bracketed literal substitution replaces exactly the maximal runs equal
to it, so the word-replacement pass acts run-wise. -/

/-- Replace every maximal word-character run `u` of the text by `f u`. -/
def mapRuns (f : List Char → List Char) : List Char → List Char
  | [] => []
  | c :: cs =>
    if pyIsWord c then
      f (List.takeWhile pyIsWord (c :: cs)) ++ mapRuns f (List.dropWhile pyIsWord (c :: cs))
    else c :: mapRuns f cs
  termination_by l => l.length
  decreasing_by
  · simp only [List.dropWhile, *]
    have := (List.dropWhile_sublist (l := cs) pyIsWord).length_le
    simp only [List.length_cons]
    omega
  · simp

/-- Effect of the word-replacement pass on one maximal word run: each
`(wrong, right)` entry in order rewrites the run when it equals the wrong
word. -/
def runStep (entries : List (String × String)) (u : List Char) : List Char :=
  entries.foldl (fun x wr => if x = wr.1.data then wr.2.data else x) u

/-- Whole-word replacement as the specification describes it: replace,
scanning left to right, every occurrence of the wrong word that is
delimited on both sides by a non-word character or a text edge; never
touch an occurrence inside a larger word.  (Comparison definition for the
Correction Applicator's `\b`-based replacement.) -/
def replaceWholeWordSpec (wrong right text : String) : String :=
  String.mk (subLitGo (fun prev => !pyIsWordOpt prev) (fun nxt => !pyIsWordOpt nxt)
    wrong.data right.data (text.data.length + 1) none text.data)

/-! ## Concrete inputs used by the individual claims -/

/-- A sample as the capture pipeline would persist it, after the correction
UI set `corrected_text` (helper for concrete corpora). -/
def mkSample (o c : String) : Sample :=
  { id := "s1", timestamp := 0, ocr_text := o, corrected_text := c, image_path := "img.jpg" }

/-- Rule set holding exactly the learned `qq -> 99` pattern fix. -/
def c1Rules : Corrections :=
  { word_replacements := [], pattern_fixes := [qqPattern], context_corrections := [] }

/-- Word-replacement rule set whose values are not keys, yet whose second
value contains the first key as a separate word. -/
def c3Rules : Corrections :=
  { word_replacements := [("a", "c"), ("b", "a c")], pattern_fixes := [],
    context_corrections := [] }

/-- A rule set whose first pattern entry is not a valid regular expression
(`re.compile("(")` raises `re.error`). -/
def c4Rules : Corrections :=
  { word_replacements := []
    pattern_fixes := [{ pattern := "(", replacement := "x", description := "bad entry" }, qqPattern]
    context_corrections := [] }

/-- Corpus observing the pair `("teh", "the")` twice. -/
def tehCorpus : List Sample :=
  [mkSample "teh cat" "the cat", mkSample "teh dog" "the dog"]

/-- Five-sample corpus with `O`-between-digits evidence (and no other
evidence): `learn.py` emits its fourth catalogue pattern, `pp6.py` has no
fourth pattern. -/
def oCorpus : List Sample :=
  [mkSample "x 1O2" "x 102", mkSample "a" "a", mkSample "a" "a",
   mkSample "a" "a", mkSample "a" "a"]

/-- Five-sample corpus observing `("teh", "the")` twice (for the
synthesizer-agreement witness). -/
def tehCorpus5 : List Sample :=
  [mkSample "teh cat" "the cat", mkSample "teh dog" "the dog", mkSample "a" "a",
   mkSample "a" "a", mkSample "a" "a"]

/-- Corpus none of whose OCR texts contains `$O` or `$o`. -/
def noDollarOCorpus : List Sample :=
  [mkSample "price 5.qq" "price 5.99", mkSample "a" "a"]

/-- Sample with exactly one word-level substitution (`c` for `a` at
position 0) whose right word also occurs elsewhere in both texts. -/
def skewSample : Sample := mkSample "c a a" "a a a"

/-- Sample with exactly one word-level substitution whose wrong word does
not occur among the corrected tokens nor the right word among the OCR
tokens. -/
def tehSample : Sample := mkSample "teh cat sat" "the cat sat"

/-- Word-replacement rule set with word-character keys and values whose
values are not keys (for the idempotence witness). -/
def idemRules : Corrections :=
  { word_replacements := [("teh", "the")], pattern_fixes := [], context_corrections := [] }

/-- Word-replacement entry whose wrong word ends in punctuation, as the
extractor produces when a correction touches a token with attached
punctuation. -/
def punctRules : Corrections :=
  { word_replacements := [("teh,", "the,")], pattern_fixes := [], context_corrections := [] }

deriving instance DecidableEq for Except

/-! # Theorems -/

/-! ## Decimal rendering is injective -/

theorem pyDigitsRev_lt (d : Nat) : ∀ fuel n, n < fuel → d ∈ pyDigitsRev fuel n → d < 10 := by
  intro fuel
  induction fuel with
  | zero => intro n h; omega
  | succ f ih =>
    intro n hn hd
    match n with
    | 0 => simp [pyDigitsRev] at hd
    | m + 1 =>
      simp only [pyDigitsRev, List.mem_cons] at hd
      rcases hd with h | h
      · omega
      · exact ih _ (by have := Nat.div_lt_self (Nat.succ_pos m) (by norm_num : 1 < 10); omega) h

theorem ofDigitsRev_pyDigitsRev : ∀ fuel n, n < fuel → ofDigitsRev (pyDigitsRev fuel n) = n := by
  intro fuel
  induction fuel with
  | zero => intro n h; omega
  | succ f ih =>
    intro n hn
    match n with
    | 0 => simp [pyDigitsRev, ofDigitsRev]
    | m + 1 =>
      have hdiv : (m + 1) / 10 < f := by
        have h1 : (m + 1) / 10 < m + 1 := Nat.div_lt_self (Nat.succ_pos m) (by norm_num)
        omega
      simp only [pyDigitsRev, ofDigitsRev, ih _ hdiv]
      omega

theorem pyDigitChar_inj {a b : Nat} (ha : a < 10) (hb : b < 10)
    (h : pyDigitChar a = pyDigitChar b) : a = b := by
  interval_cases a <;> interval_cases b <;> simp_all [pyDigitChar]


theorem decodeDec_reverse_map (l : List Nat) (hl : ∀ d ∈ l, d < 10) :
    decodeDec ((l.map pyDigitChar).reverse) = ofDigitsRev l := by
  induction l with
  | nil => simp [decodeDec, ofDigitsRev]
  | cons d ds ih =>
    have hd : d < 10 := hl d (by simp)
    have hchar : (pyDigitChar d).toNat - '0'.toNat = d := by
      interval_cases d <;> decide
    simp only [List.map, List.reverse_cons, decodeDec, List.foldl_append, List.foldl_cons,
      List.foldl_nil, ofDigitsRev]
    rw [show List.foldl (fun acc c => acc * 10 + (c.toNat - '0'.toNat)) 0
          (List.reverse (List.map pyDigitChar ds)) = decodeDec ((ds.map pyDigitChar).reverse) from rfl,
      ih (fun e he => hl e (by simp [he])), hchar]
    ring

theorem decodeDec_pyDecimal (n : Nat) : decodeDec (pyDecimal n).data = n := by
  by_cases hn : n = 0
  · subst hn; rfl
  · simp only [pyDecimal, if_neg hn]
    rw [decodeDec_reverse_map _ (fun d hd => pyDigitsRev_lt d _ _ (by omega) hd)]
    exact ofDigitsRev_pyDigitsRev _ n (by omega)

theorem pyDecimal_inj {m n : Nat} (h : pyDecimal m = pyDecimal n) : m = n := by
  have := congrArg (fun s => decodeDec (String.data s)) h
  simpa [decodeDec_pyDecimal] using this

theorem mkSampleId_inj {t₁ t₂ : Nat} (h : mkSampleId t₁ = mkSampleId t₂) : t₁ = t₂ := by
  apply pyDecimal_inj
  have hdata := congrArg String.data h
  simp only [mkSampleId, String.data_append] at hdata
  have hcl := List.append_cancel_left hdata
  have : String.mk (pyDecimal t₁).data = String.mk (pyDecimal t₂).data := by rw [hcl]
  simpa using this


/-! ## C8: sample ids and overwrites -/

/-- C8 (counterexample): two distinct `save_training_sample` invocations
falling in the same second (`int(time.time())` returns the same value)
store records that are distinct yet carry the *same* `id` and the *same*
metadata path — the later write overwrites the earlier record. -/
theorem saveTrainingSample_same_second_collision :
    (saveTrainingSample 100 "text one").1 ≠ (saveTrainingSample 100 "text two").1 ∧
    (saveTrainingSample 100 "text one").1.id = (saveTrainingSample 100 "text two").1.id ∧
    (saveTrainingSample 100 "text one").2.1 = (saveTrainingSample 100 "text two").2.1 :=
  ⟨by decide, rfl, rfl⟩

/-- C8 (amended): `save_training_sample` invocations at *distinct* integer
timestamps receive distinct ids and write distinct metadata paths, so
neither overwrites the other; uniqueness of `id` holds exactly up to the
second-resolution timestamp. -/
theorem saveTrainingSample_distinct_timestamps (t₁ t₂ : Nat) (o₁ o₂ : String)
    (h : t₁ ≠ t₂) :
    (saveTrainingSample t₁ o₁).1.id ≠ (saveTrainingSample t₂ o₂).1.id ∧
    (saveTrainingSample t₁ o₁).2.1 ≠ (saveTrainingSample t₂ o₂).2.1 := by
  constructor
  · intro he
    exact h (mkSampleId_inj he)
  · intro he
    apply h
    apply mkSampleId_inj
    have he' : TRAINING_DATA_DIR ++ "/" ++ mkSampleId t₁ ++ ".json"
        = TRAINING_DATA_DIR ++ "/" ++ mkSampleId t₂ ++ ".json" := he
    have hd := congrArg String.data he'
    simp only [String.data_append, List.append_assoc] at hd
    have h1 := List.append_cancel_left hd
    have h2 := List.append_cancel_left h1
    have h3 := List.append_cancel_right h2
    have : String.mk (mkSampleId t₁).data = String.mk (mkSampleId t₂).data := by rw [h3]
    simpa using this

/-- Witness for `saveTrainingSample_distinct_timestamps` at timestamps 1
and 2. -/
theorem saveTrainingSample_distinct_timestamps_witness :
    (1 : Nat) ≠ 2 ∧
    ((saveTrainingSample 1 "a").1.id ≠ (saveTrainingSample 2 "b").1.id ∧
     (saveTrainingSample 1 "a").2.1 ≠ (saveTrainingSample 2 "b").2.1) :=
  ⟨by decide, saveTrainingSample_distinct_timestamps 1 2 "a" "b" (by decide)⟩

/-! ## C9: the correction UI only changes `corrected_text` -/

/-- C9: whenever the correction loop of `train.py` saves a sample back
(`trainStep` returns a record), the persisted record agrees with the
loaded one on `id`, `timestamp`, `ocr_text` and `image_path`; only
`corrected_text` can differ. -/
theorem trainStep_frame (s : Sample) (input : String) (r : Sample)
    (h : trainStep s input = some r) :
    r.id = s.id ∧ r.timestamp = s.timestamp ∧ r.ocr_text = s.ocr_text ∧
      r.image_path = s.image_path := by
  unfold trainStep at h
  split_ifs at h <;> cases h <;> exact ⟨rfl, rfl, rfl, rfl⟩

/-- Witness for `trainStep_frame`: correcting the sample `"qq" / "qq"` to
`"price 99"`. -/
theorem trainStep_frame_witness :
    ({ id := "s1", timestamp := 0, ocr_text := "qq", corrected_text := "price 99",
       image_path := "img.jpg" } : Sample).id = (mkSample "qq" "qq").id ∧
    ({ id := "s1", timestamp := 0, ocr_text := "qq", corrected_text := "price 99",
       image_path := "img.jpg" } : Sample).timestamp = (mkSample "qq" "qq").timestamp ∧
    ({ id := "s1", timestamp := 0, ocr_text := "qq", corrected_text := "price 99",
       image_path := "img.jpg" } : Sample).ocr_text = (mkSample "qq" "qq").ocr_text ∧
    ({ id := "s1", timestamp := 0, ocr_text := "qq", corrected_text := "price 99",
       image_path := "img.jpg" } : Sample).image_path = (mkSample "qq" "qq").image_path :=
  trainStep_frame (mkSample "qq" "qq") "price 99" _ (by decide)

/-! ## C4: an invalid persisted pattern aborts the applicator pass -/

/-- C4: with the invalid pattern `"("` stored in `pattern_fixes`,
`apply_learned_corrections` does *not* skip the bad entry and apply the
remaining rules: the `re.error` raised by `re.sub` propagates out of the
loop (there is no per-rule exception handling), so the later `qq -> 99`
rule is never applied and no corrected text is returned. -/
theorem applyLearnedCorrections_aborts_on_bad_pattern :
    applyLearnedCorrections c4Rules "cost 5.qq" =
      Except.error "re.error: bad pattern (" := by
  rfl

/-! ## C1: the end-to-end normalization example -/

/-- C1 (counterexample): the cleanup pipeline on the spec's raw text does
not produce the spec's expected string — the unconditional digit-`O` pass
`(\d)[Oo] -> \1 0` inserts a space, so `5O%` becomes `5 0 percent`, not
`50 percent`. -/
theorem cleanText_example3_ne_spec :
    cleanTextCore c1Rules "Total $ 12.qq & 5O% off" ≠
      Except.ok "Total 12.99 dollars and 50 percent off" := by
  decide

/-- C1 (amended): the cleanup pipeline (basic whitespace/currency cleanup,
the learned `qq -> 99` rule, then the unconditional normalization passes)
on `"Total $ 12.qq & 5O% off"` produces exactly
`"Total 12.99 dollars and 5 0 percent off"`. -/
theorem cleanText_example3_eval :
    cleanTextCore c1Rules "Total $ 12.qq & 5O% off" =
      Except.ok "Total 12.99 dollars and 5 0 percent off" := by
  rfl

/-! ## C6: hypothesis gating of the `$0` pattern -/

theorem not_mem_if_singleton {c : Prop} [Decidable c] {p q : PatternFix}
    (h : p ≠ q) : p ∉ (if c then [q] else []) := by
  split <;> simp [h]

/-- C6: over a corpus in which no sample's OCR text contains `"$O"` or
`"$o"`, the synthesized rule set omits the `\$[Oo] -> $0` pattern — in
`learn.py`'s `create_learned_corrections` and likewise in `pp6.py`'s
`learn_from_corrections` whenever it runs. -/
theorem dollarO_rule_absent (samples : List Sample)
    (h : ∀ s ∈ samples,
      pyInStr "$O" s.ocr_text = false ∧ pyInStr "$o" s.ocr_text = false) :
    dollarOPattern ∉
        (createLearnedCorrections (analyzeCorrections samples) samples).pattern_fixes ∧
      ∀ lc rs, learnFromCorrections samples lc = some rs →
        dollarOPattern ∉ rs.pattern_fixes := by
  have hany : (samples.any fun s =>
      pyInStr "$O" s.ocr_text || pyInStr "$o" s.ocr_text) = false := by
    rw [List.any_eq_false]
    intro s hs
    simp [(h s hs).1, (h s hs).2]
  constructor
  · simp only [createLearnedCorrections, hany]
    intro hmem
    simp only [List.mem_append, Bool.false_eq_true, if_false, List.not_mem_nil, or_false] at hmem
    rcases hmem with (h1 | h1) | h1 <;>
      exact not_mem_if_singleton (by decide) h1
  · intro lc rs hrs
    unfold learnFromCorrections at hrs
    split at hrs
    · exact absurd hrs (by simp)
    · simp only [Option.some.injEq] at hrs
      subst hrs
      simp only [hany]
      intro hmem
      simp only [List.mem_append, Bool.false_eq_true, if_false, List.not_mem_nil,
        or_false] at hmem
      rcases hmem with h1 | h1 <;>
        exact not_mem_if_singleton (by decide) h1

/-- Witness for `dollarO_rule_absent` on a concrete corpus (the `qq`
pattern, whose evidence is present, is still produced — only the `$0`
rule is gated out). -/
theorem dollarO_rule_absent_witness :
    (∀ s ∈ noDollarOCorpus,
      pyInStr "$O" s.ocr_text = false ∧ pyInStr "$o" s.ocr_text = false) ∧
    (dollarOPattern ∉
        (createLearnedCorrections (analyzeCorrections noDollarOCorpus)
          noDollarOCorpus).pattern_fixes ∧
      ∀ lc rs, learnFromCorrections noDollarOCorpus lc = some rs →
        dollarOPattern ∉ rs.pattern_fixes) :=
  ⟨by decide, dollarO_rule_absent noDollarOCorpus (by decide)⟩

/-! ## The `word_changes` table: distinct keys, and the threshold fold -/

theorem bumpOuter_keys (w r : String) :
    ∀ wc : List (String × List (String × Nat)),
      (bumpOuter w r wc).map Prod.fst =
        if w ∈ wc.map Prod.fst then wc.map Prod.fst else wc.map Prod.fst ++ [w] := by
  intro wc
  induction wc with
  | nil => simp [bumpOuter]
  | cons e rest ih =>
    obtain ⟨k, inner⟩ := e
    by_cases hk : k = w
    · subst hk
      simp [bumpOuter]
    · simp only [bumpOuter, if_neg hk, List.map_cons, ih]
      have : w ∈ k :: rest.map Prod.fst ↔ w ∈ rest.map Prod.fst := by
        simp [Ne.symm hk]
      by_cases hw : w ∈ rest.map Prod.fst <;> simp [hw, this]

theorem bumpOuter_nodup (w r : String) (wc : List (String × List (String × Nat)))
    (h : (wc.map Prod.fst).Nodup) : ((bumpOuter w r wc).map Prod.fst).Nodup := by
  rw [bumpOuter_keys]
  split
  · exact h
  · rename_i hw
    refine List.Nodup.append h (List.nodup_singleton w) ?_
    intro x hx hx'
    simp only [List.mem_singleton] at hx'
    exact hw (hx' ▸ hx)

theorem nodup_obs_fold (obs : List (String × String)) :
    ∀ wc, (wc.map Prod.fst).Nodup →
      (((obs.foldl (fun wc p => bumpOuter p.1 p.2 wc) wc)).map Prod.fst).Nodup := by
  induction obs with
  | nil => intro wc h; exact h
  | cons p rest ih =>
    intro wc h
    exact ih _ (bumpOuter_nodup p.1 p.2 wc h)

theorem nodup_analyzeCorrections (samples : List Sample) :
    ((analyzeCorrections samples).map Prod.fst).Nodup := by
  suffices h : ∀ wc, (wc.map Prod.fst).Nodup →
      ((samples.foldl
        (fun wc s => (extractObservations s).foldl (fun wc p => bumpOuter p.1 p.2 wc) wc)
        wc).map Prod.fst).Nodup by
    exact h [] (by simp)
  induction samples with
  | nil => intro wc h; exact h
  | cons s rest ih =>
    intro wc h
    exact ih _ (nodup_obs_fold (extractObservations s) wc h)

theorem setAssoc_of_not_mem (k v : String) :
    ∀ acc : List (String × String), k ∉ acc.map Prod.fst →
      setAssoc k v acc = acc ++ [(k, v)] := by
  intro acc
  induction acc with
  | nil => intro _; rfl
  | cons e rest ih =>
    intro h
    simp only [List.map_cons, List.mem_cons] at h
    push_neg at h
    simp only [setAssoc, if_neg (Ne.symm h.1), List.cons_append, List.cons.injEq, true_and]
    exact ih h.2

/-- On a table with distinct keys, the `pp6.py` assignment fold starting
from an accumulator disjoint from the table's keys agrees with the
`learn.py` append fold. -/
theorem setAssoc_fold_eq_append_fold :
    ∀ (wc : List (String × List (String × Nat))) (acc : List (String × String)),
      (wc.map Prod.fst).Nodup →
      (∀ e ∈ wc, e.1 ∉ acc.map Prod.fst) →
      wc.foldl
          (fun acc e =>
            if 2 ≤ (maxByCount e.2).2 then setAssoc e.1 (maxByCount e.2).1 acc else acc) acc =
        wc.foldl
          (fun acc e =>
            if 2 ≤ (maxByCount e.2).2 then acc ++ [(e.1, (maxByCount e.2).1)] else acc) acc := by
  intro wc
  induction wc with
  | nil => intro acc _ _; rfl
  | cons e rest ih =>
    intro acc hnd hdisj
    simp only [List.map_cons, List.nodup_cons] at hnd
    simp only [List.foldl_cons]
    by_cases hc : 2 ≤ (maxByCount e.2).2
    · rw [if_pos hc, if_pos hc, setAssoc_of_not_mem e.1 (maxByCount e.2).1 acc
        (hdisj e (by simp))]
      refine ih _ hnd.2 ?_
      intro e' he'
      simp only [List.map_append, List.mem_append, List.map_cons, List.map_nil,
        List.mem_singleton, not_or]
      refine ⟨hdisj e' (by simp [he']), ?_⟩
      intro hcontra
      exact hnd.1 (hcontra ▸ List.mem_map_of_mem Prod.fst he')
    · rw [if_neg hc, if_neg hc]
      exact ih _ hnd.2 fun e' he' => hdisj e' (by simp [he'])

/-! ## C10: the two synthesizer implementations -/

/-- C10 (counterexample): over the five-sample corpus `oCorpus` (with
`O`-between-digits evidence) the two synthesizers produce different rule
sets from the empty start: `learn.py`'s catalogue has the fourth,
`(\d)[Oo](\d) -> \g<1>0\2` pattern, which `pp6.py`'s catalogue lacks. -/
theorem synthesizers_differ_on_oCorpus :
    learnFromCorrections oCorpus emptyCorrections ≠
      some (createLearnedCorrections (analyzeCorrections oCorpus) oCorpus) := by
  decide

/-- C10 (amended): whenever `pp6.py`'s `learn_from_corrections` runs (at
least 5 samples) starting from the empty rule set, the `word_replacements`
it synthesizes equals the one `learn.py`'s `create_learned_corrections`
synthesizes from the same corpus; the `pattern_fixes` sequences differ in
general (`learn.py` has a fourth O-between-digits rule and uses
`\d[lI]\d`/`\d1\d` as the l/I evidence test where `pp6.py` uses
`\dl`/`\d1`). -/
theorem synthesizers_word_replacements_agree (samples : List Sample) (rs : Corrections)
    (h : learnFromCorrections samples emptyCorrections = some rs) :
    rs.word_replacements =
      (createLearnedCorrections (analyzeCorrections samples) samples).word_replacements := by
  unfold learnFromCorrections at h
  split at h
  · cases h
  · simp only [Option.some.injEq] at h
    subst h
    simp only [createLearnedCorrections, wordReplacementsOf]
    exact setAssoc_fold_eq_append_fold (analyzeCorrections samples) []
      (nodup_analyzeCorrections samples) (by simp)

/-- Witness for `synthesizers_word_replacements_agree` on the five-sample
corpus `tehCorpus5`. -/
theorem synthesizers_word_replacements_agree_witness :
    ({ word_replacements := [("teh", "the")], pattern_fixes := [],
       context_corrections := [] } : Corrections).word_replacements =
      (createLearnedCorrections (analyzeCorrections tehCorpus5) tehCorpus5).word_replacements :=
  synthesizers_word_replacements_agree tehCorpus5 _ (by decide)

/-! ## C2: the frequency threshold of `word_replacements` -/

theorem maxByCount_aux (xs : List (String × Nat)) :
    ∀ p : String × Nat,
      (xs.foldl (fun best x => if x.2 > best.2 then x else best) p) ∈ p :: xs ∧
      p.2 ≤ (xs.foldl (fun best x => if x.2 > best.2 then x else best) p).2 ∧
      ∀ x ∈ xs, x.2 ≤ (xs.foldl (fun best x => if x.2 > best.2 then x else best) p).2 := by
  induction xs with
  | nil =>
    intro p
    refine ⟨by simp, le_refl _, ?_⟩
    intro x hx
    simp at hx
  | cons y ys ih =>
    intro p
    simp only [List.foldl_cons]
    obtain ⟨hmem, hle, hall⟩ := ih (if y.2 > p.2 then y else p)
    refine ⟨?_, ?_, ?_⟩
    · rcases List.mem_cons.mp hmem with h | h
      · rw [h]
        split <;> simp
      · exact List.mem_cons_of_mem _ (List.mem_cons_of_mem _ h)
    · refine le_trans ?_ hle
      split <;> omega
    · intro x hx
      rcases List.mem_cons.mp hx with h | h
      · subst h
        refine le_trans ?_ hle
        split <;> omega
      · exact hall x h

theorem maxByCount_mem (l : List (String × Nat)) (h : l ≠ []) : maxByCount l ∈ l := by
  match l with
  | p :: rest =>
    have := (maxByCount_aux rest p).1
    simpa [maxByCount] using this

theorem maxByCount_ge (l : List (String × Nat)) : ∀ x ∈ l, x.2 ≤ (maxByCount l).2 := by
  match l with
  | [] => intro x hx; simp at hx
  | p :: rest =>
    intro x hx
    obtain ⟨_, hle, hall⟩ := maxByCount_aux rest p
    rcases List.mem_cons.mp hx with h | h
    · subst h
      simpa [maxByCount] using hle
    · simpa [maxByCount] using hall x h

theorem lookup_eq_none_of_not_mem (k : String) :
    ∀ l : List (String × String), k ∉ l.map Prod.fst → List.lookup k l = none := by
  intro l
  induction l with
  | nil => intro _; rfl
  | cons e rest ih =>
    intro h
    simp only [List.map_cons, List.mem_cons, not_or] at h
    obtain ⟨k', v⟩ := e
    simp only [List.lookup]
    rw [show (k == k') = false from beq_eq_false_iff_ne.mpr h.1]
    exact ih h.2

theorem lookup_foldA_of_not_key (k : String) :
    ∀ (wc : List (String × List (String × Nat))) (acc : List (String × String)),
      k ∉ wc.map Prod.fst →
      List.lookup k
          (wc.foldl
            (fun acc e =>
              if 2 ≤ (maxByCount e.2).2 then acc ++ [(e.1, (maxByCount e.2).1)] else acc)
            acc) =
        List.lookup k acc := by
  intro wc
  induction wc with
  | nil => intro acc _; rfl
  | cons e rest ih =>
    intro acc h
    simp only [List.map_cons, List.mem_cons, not_or] at h
    simp only [List.foldl_cons]
    rw [ih _ h.2]
    split
    · rw [List.lookup_append]
      have hnone : List.lookup k [(e.1, (maxByCount e.2).1)] = none := by
        simp only [List.lookup]
        rw [show (k == e.1) = false from beq_eq_false_iff_ne.mpr h.1]
      rw [hnone, Option.or_none]
    · rfl

theorem lookup_wordReplacementsOf_aux (wrong : String) (rights : List (String × Nat)) :
    ∀ (wc : List (String × List (String × Nat))) (acc : List (String × String)),
      (wc.map Prod.fst).Nodup → (wrong, rights) ∈ wc → wrong ∉ acc.map Prod.fst →
      List.lookup wrong
          (wc.foldl
            (fun acc e =>
              if 2 ≤ (maxByCount e.2).2 then acc ++ [(e.1, (maxByCount e.2).1)] else acc)
            acc) =
        if 2 ≤ (maxByCount rights).2 then some (maxByCount rights).1 else none := by
  intro wc
  induction wc with
  | nil =>
    intro acc _ hmem _
    simp at hmem
  | cons e rest ih =>
    intro acc hnd hmem hacc
    simp only [List.map_cons, List.nodup_cons] at hnd
    simp only [List.foldl_cons]
    rcases List.mem_cons.mp hmem with he | he
    · have hw : wrong ∉ rest.map Prod.fst := by
        rw [← he] at hnd
        exact hnd.1
      rw [← he]
      rw [lookup_foldA_of_not_key wrong rest _ hw]
      split
      · rw [List.lookup_append, lookup_eq_none_of_not_mem wrong acc hacc]
        simp only [List.lookup, beq_self_eq_true, Option.or]
      · exact lookup_eq_none_of_not_mem wrong acc hacc
    · have hne : e.1 ≠ wrong := by
        intro hcontra
        exact hnd.1 (hcontra ▸ List.mem_map_of_mem Prod.fst he)
      refine ih _ hnd.2 he ?_
      split
      · simp only [List.map_append, List.mem_append, List.map_cons, List.map_nil,
          List.mem_singleton, not_or]
        exact ⟨hacc, fun hc => hne hc.symm⟩
      · exact hacc

/-- C2: for every corpus and every wrong word observed by the extractor
(i.e., every entry `(wrong, rights)` of the `word_changes` table), with
`M` the highest occurrence count among its observed replacements: the
synthesized `word_replacements` contains `wrong` iff `M ≥ 2`, and when
present it maps to a replacement achieving that highest count (the first
encountered, on ties).  In particular a pair observed exactly once is
absent, and one observed exactly twice is present. -/
theorem word_replacements_iff_threshold (samples : List Sample)
    (wrong : String) (rights : List (String × Nat)) (M : Nat)
    (hmem : (wrong, rights) ∈ analyzeCorrections samples)
    (hub : ∀ p ∈ rights, p.2 ≤ M)
    (hach : ∃ r, (r, M) ∈ rights) :
    ((∃ v, List.lookup wrong
        (createLearnedCorrections (analyzeCorrections samples) samples).word_replacements
          = some v) ↔ 2 ≤ M) ∧
      ∀ v, List.lookup wrong
          (createLearnedCorrections (analyzeCorrections samples) samples).word_replacements
            = some v → (v, M) ∈ rights := by
  obtain ⟨r0, hr0⟩ := hach
  have hne : rights ≠ [] := by
    intro h
    rw [h] at hr0
    simp at hr0
  have hMeq : (maxByCount rights).2 = M :=
    le_antisymm (hub _ (maxByCount_mem rights hne)) (maxByCount_ge rights _ hr0)
  have hchar : List.lookup wrong
      (createLearnedCorrections (analyzeCorrections samples) samples).word_replacements
        = if 2 ≤ (maxByCount rights).2 then some (maxByCount rights).1 else none :=
    lookup_wordReplacementsOf_aux wrong rights (analyzeCorrections samples) []
      (nodup_analyzeCorrections samples) hmem (by simp)
  rw [hchar, hMeq]
  constructor
  · constructor
    · rintro ⟨v, hv⟩
      by_contra hlt
      rw [if_neg hlt] at hv
      cases hv
    · intro h2
      exact ⟨(maxByCount rights).1, by rw [if_pos h2]⟩
  · intro v hv
    split at hv
    · simp only [Option.some.injEq] at hv
      subst hv
      have hm : ((maxByCount rights).1, (maxByCount rights).2) ∈ rights := by
        simpa using maxByCount_mem rights hne
      rwa [hMeq] at hm
    · cases hv

/-- Witness for `word_replacements_iff_threshold` on the corpus observing
`("teh", "the")` twice. -/
theorem word_replacements_iff_threshold_witness :
    ((("teh" : String), [(("the" : String), (2 : Nat))]) ∈ analyzeCorrections tehCorpus) ∧
    (∀ p ∈ [(("the" : String), (2 : Nat))], p.2 ≤ 2) ∧
    (∃ r, (r, (2 : Nat)) ∈ [(("the" : String), (2 : Nat))]) ∧
    (((∃ v, List.lookup "teh"
        (createLearnedCorrections (analyzeCorrections tehCorpus) tehCorpus).word_replacements
          = some v) ↔ 2 ≤ 2) ∧
      ∀ v, List.lookup "teh"
          (createLearnedCorrections (analyzeCorrections tehCorpus) tehCorpus).word_replacements
            = some v → (v, 2) ∈ [(("the" : String), (2 : Nat))]) :=
  ⟨by decide, by decide, ⟨"the", by decide⟩,
    word_replacements_iff_threshold tehCorpus "teh" [("the", 2)] 2 (by decide) (by decide)
      ⟨"the", by decide⟩⟩

/-! ## C7: whole-word replacement and punctuation-edged tokens -/

/-- C7 (counterexample): with the entry `("teh,", "the,")` — a wrong word
ending in a comma, as the extractor produces from tokens with attached
punctuation — the applicator leaves the text `"teh, cat"` unchanged: its
whole-word occurrence `teh,` (delimited by the text edge and a space) is
*not* replaced, because the trailing `\b` after the comma demands a word
character next. -/
theorem word_replacement_misses_punctuated_token :
    applyLearnedCorrections punctRules "teh, cat" = Except.ok "teh, cat" ∧
    ("teh, cat" : String) ≠ "the, cat" :=
  ⟨rfl, by decide⟩

/-- C7 (amended): for every entry whose wrong word begins *and* ends with
a word character (letter, digit or underscore) and whose replacement
contains no backslash (so Python's `re.sub` takes its literal-repl fast
path rather than template processing, which on a backslash would give
group references and `re.error` on bad escapes), the applicator's
`\b`-bracketed substitution coincides with whole-word replacement as the
spec words it: every occurrence delimited on both sides by a non-word
character or a text edge is replaced, left to right, and occurrences
inside larger words are never touched. -/
theorem pySubWord_eq_wholeWord (wrong right text : String)
    (h1 : pyIsWordOpt wrong.data.head? = true)
    (h2 : pyIsWordOpt wrong.data.getLast? = true)
    (h3 : ('\\' : Char) ∉ right.data) :
    pySubWord wrong right text = replaceWholeWordSpec wrong right text := by
  unfold pySubWord replaceWholeWordSpec pySubWordData
  have hbs : (fun prev => pyIsWordOpt prev != pyIsWordOpt wrong.data.head?)
      = fun prev => !pyIsWordOpt prev := by
    funext p
    rw [h1]
    cases pyIsWordOpt p <;> rfl
  have hbe : (fun nxt => pyIsWordOpt wrong.data.getLast? != pyIsWordOpt nxt)
      = fun nxt => !pyIsWordOpt nxt := by
    funext p
    rw [h2]
    cases pyIsWordOpt p <;> rfl
  rw [hbs, hbe]

/-- Witness for `pySubWord_eq_wholeWord` on the entry `("teh", "the")`. -/
theorem pySubWord_eq_wholeWord_witness :
    pyIsWordOpt ("teh" : String).data.head? = true ∧
    pyIsWordOpt ("teh" : String).data.getLast? = true ∧
    ('\\' : Char) ∉ ("the" : String).data ∧
    pySubWord "teh" "the" "teh bird, theh teh" =
      replaceWholeWordSpec "teh" "the" "teh bird, theh teh" :=
  ⟨by decide, by decide, by decide,
    pySubWord_eq_wholeWord "teh" "the" "teh bird, theh teh"
      (by decide) (by decide) (by decide)⟩

/-! ## C3: idempotence of the word-replacement pass

The `\b`-bracketed substitution for a wrong word made of word characters
acts on the maximal word-character runs of the text: a match is exactly a
maximal run equal to the wrong word.  The pass is therefore `mapRuns` of a
per-run function, and idempotence reduces to a fixpoint property of that
function. -/

theorem mapRuns_nil (f : List Char → List Char) : mapRuns f [] = [] := by
  rw [mapRuns]

theorem mapRuns_cons_sep (f : List Char → List Char) (c : Char) (cs : List Char)
    (h : pyIsWord c = false) : mapRuns f (c :: cs) = c :: mapRuns f cs := by
  rw [mapRuns]
  simp [h]

theorem mapRuns_cons_run (f : List Char → List Char) (c : Char) (cs : List Char)
    (h : pyIsWord c = true) :
    mapRuns f (c :: cs) =
      f (List.takeWhile pyIsWord (c :: cs)) ++ mapRuns f (List.dropWhile pyIsWord (c :: cs)) := by
  rw [mapRuns]
  simp [h]

theorem dropWhile_head_not (p : Char → Bool) :
    ∀ (l : List Char) (c : Char), (l.dropWhile p).head? = some c → p c = false := by
  intro l
  induction l with
  | nil => intro c h; cases h
  | cons d rest ih =>
    intro c h
    by_cases hd : p d
    · rw [List.dropWhile_cons_of_pos hd] at h
      exact ih c h
    · rw [List.dropWhile_cons_of_neg hd] at h
      cases h
      exact Bool.of_not_eq_true hd

theorem takeWhile_run_append (p : Char → Bool) :
    ∀ (v M : List Char), v.all p = true →
      (∀ c, M.head? = some c → p c = false) →
      List.takeWhile p (v ++ M) = v ∧ List.dropWhile p (v ++ M) = M := by
  intro v
  induction v with
  | nil =>
    intro M _ hM
    constructor
    · match M with
      | [] => rfl
      | c :: M' =>
        simp only [List.nil_append]
        rw [List.takeWhile_cons_of_neg]
        simp [hM c rfl]
    · match M with
      | [] => rfl
      | c :: M' =>
        simp only [List.nil_append]
        rw [List.dropWhile_cons_of_neg]
        simp [hM c rfl]
  | cons a v' ih =>
    intro M hall hM
    simp only [List.all_cons, Bool.and_eq_true] at hall
    obtain ⟨h1, h2⟩ := ih M hall.2 hM
    constructor
    · simp only [List.cons_append]
      rw [List.takeWhile_cons_of_pos hall.1, h1]
    · simp only [List.cons_append]
      rw [List.dropWhile_cons_of_pos hall.1, h2]

theorem prefix_takeWhile (p : Char → Bool) :
    ∀ (w l : List Char), w.all p = true → w <+: l → w <+: List.takeWhile p l := by
  intro w
  induction w with
  | nil => intro l _ _; exact List.nil_prefix
  | cons a w' ih =>
    intro l hall hp
    simp only [List.all_cons, Bool.and_eq_true] at hall
    obtain ⟨t, ht⟩ := hp
    subst ht
    simp only [List.cons_append]
    rw [List.takeWhile_cons_of_pos hall.1]
    obtain ⟨t', ht'⟩ := ih (w' ++ t) hall.2 ⟨t, rfl⟩
    exact ⟨t', by rw [List.cons_append, ht']⟩

theorem lastCharOpt_cons (c : Char) (v : List Char) (prev : Option Char) :
    lastCharOpt (c :: v) prev = lastCharOpt v (some c) := by
  unfold lastCharOpt
  match v with
  | [] => rfl
  | d :: v' =>
    rw [List.getLast?_cons_cons]
    cases h : (d :: v').getLast? with
    | none => simp at h
    | some x => rfl

theorem headOpt_word (w : List Char) (hw : w ≠ []) (hall : w.all pyIsWord = true) :
    pyIsWordOpt w.head? = true := by
  match w with
  | c :: w' =>
    simp only [List.all_cons, Bool.and_eq_true] at hall
    simpa [pyIsWordOpt] using hall.1

theorem getLastOpt_word (w : List Char) (hw : w ≠ []) (hall : w.all pyIsWord = true) :
    pyIsWordOpt w.getLast? = true := by
  rw [List.getLast?_eq_getLast w hw]
  simp only [pyIsWordOpt]
  exact List.all_eq_true.mp hall _ (List.getLast_mem hw)

theorem subLit_walk (w r : List Char) (hwhd : pyIsWordOpt w.head? = true) :
    ∀ (v rest : List Char) (fuel : Nat) (prev : Option Char),
      v.all pyIsWord = true → pyIsWordOpt prev = true →
      subLitGo (fun p => pyIsWordOpt p != pyIsWordOpt w.head?)
          (fun n => pyIsWordOpt w.getLast? != pyIsWordOpt n) w r
          (v.length + fuel) prev (v ++ rest)
        = v ++ subLitGo (fun p => pyIsWordOpt p != pyIsWordOpt w.head?)
            (fun n => pyIsWordOpt w.getLast? != pyIsWordOpt n) w r
            fuel (lastCharOpt v prev) rest := by
  intro v
  induction v with
  | nil =>
    intro rest fuel prev _ _
    simp [lastCharOpt]
  | cons c v' ih =>
    intro rest fuel prev hall hprev
    simp only [List.all_cons, Bool.and_eq_true] at hall
    simp only [List.cons_append, List.length_cons]
    rw [show v'.length + 1 + fuel = (v'.length + fuel) + 1 from by omega]
    have hcond : (pyIsWordOpt prev != pyIsWordOpt w.head?) = false := by
      rw [hprev, hwhd]
      rfl
    simp only [subLitGo, hcond, Bool.and_false, Bool.false_and, Bool.false_eq_true, if_false]
    rw [ih rest fuel (some c) hall.2 (by simpa [pyIsWordOpt] using hall.1),
      lastCharOpt_cons]

theorem subLit_mapRuns (w r : List Char) (hw : w ≠ []) (hall : w.all pyIsWord = true) :
    ∀ (fuel : Nat) (cs : List Char) (prev : Option Char),
      cs.length < fuel →
      (pyIsWordOpt prev && pyIsWordOpt cs.head?) = false →
      subLitGo (fun p => pyIsWordOpt p != pyIsWordOpt w.head?)
          (fun n => pyIsWordOpt w.getLast? != pyIsWordOpt n) w r fuel prev cs
        = mapRuns (fun u => if u = w then r else u) cs := by
  intro fuel
  induction fuel using Nat.strong_induction_on with
  | _ fuel ihF =>
    intro cs prev hfuel hH
    have hwem : (!w.isEmpty) = true := by
      cases w with
      | nil => exact absurd rfl hw
      | cons a l => rfl
    cases fuel with
    | zero => omega
    | succ F =>
      cases cs with
      | nil =>
        rw [mapRuns_nil]
        rfl
      | cons c cs' =>
        by_cases hc : pyIsWord c
        · have hprev : pyIsWordOpt prev = false := by
            simp only [List.head?_cons, pyIsWordOpt, hc, Bool.and_true] at hH
            exact hH
          have huc : List.takeWhile pyIsWord (c :: cs') = c :: List.takeWhile pyIsWord cs' :=
            List.takeWhile_cons_of_pos hc
          have hsplit : List.takeWhile pyIsWord (c :: cs') ++ List.dropWhile pyIsWord (c :: cs')
              = c :: cs' := List.takeWhile_append_dropWhile pyIsWord (c :: cs')
          have hrest_head : ∀ x, (List.dropWhile pyIsWord (c :: cs')).head? = some x →
              pyIsWord x = false := dropWhile_head_not pyIsWord (c :: cs')
          have hrestH : ∀ q : Option Char,
              (pyIsWordOpt q && pyIsWordOpt (List.dropWhile pyIsWord (c :: cs')).head?)
                = false := by
            intro q
            cases hx : (List.dropWhile pyIsWord (c :: cs')).head? with
            | none => simp [pyIsWordOpt]
            | some x => simp [pyIsWordOpt, hrest_head x hx]
          have hrest_len : (List.dropWhile pyIsWord (c :: cs')).length ≤ cs'.length := by
            rw [List.dropWhile_cons_of_pos hc]
            exact (List.dropWhile_sublist pyIsWord).length_le
          by_cases hu : List.takeWhile pyIsWord (c :: cs') = w
          · -- the maximal run is exactly the wrong word: the scanner matches it
            have hsplit' : c :: cs' = w ++ List.dropWhile pyIsWord (c :: cs') := by
              rw [← hu]
              exact hsplit.symm
            have hdrop : (c :: cs').drop w.length = List.dropWhile pyIsWord (c :: cs') := by
              conv_lhs => rw [hsplit']
              exact List.drop_left _ _
            have hcond : (!w.isEmpty && w.isPrefixOf (c :: cs')
                && (pyIsWordOpt prev != pyIsWordOpt w.head?)
                && (pyIsWordOpt w.getLast? != pyIsWordOpt (((c :: cs').drop w.length).head?)))
                  = true := by
              have h2 : w.isPrefixOf (c :: cs') = true := by
                rw [List.isPrefixOf_iff_prefix, hsplit']
                exact List.prefix_append w _
              have h3 : (pyIsWordOpt prev != pyIsWordOpt w.head?) = true := by
                rw [hprev, headOpt_word w hw hall]
                rfl
              have h4 : (pyIsWordOpt w.getLast?
                  != pyIsWordOpt (((c :: cs').drop w.length).head?)) = true := by
                rw [getLastOpt_word w hw hall, hdrop]
                cases hx : (List.dropWhile pyIsWord (c :: cs')).head? with
                | none => rfl
                | some x => simp [pyIsWordOpt, hrest_head x hx]
              rw [hwem, h2, h3, h4]
              rfl
            simp only [subLitGo, hcond, if_true]
            rw [mapRuns_cons_run _ c cs' hc, hu, if_pos rfl]
            congr 1
            rw [hdrop]
            have hflen : cs'.length < F := by
              simpa using Nat.lt_of_succ_lt_succ hfuel
            refine ihF F (by omega) _ _ (by omega) (hrestH _)
          · -- the run differs from the wrong word: no match here
            have hcond : (!w.isEmpty && w.isPrefixOf (c :: cs')
                && (pyIsWordOpt prev != pyIsWordOpt w.head?)
                && (pyIsWordOpt w.getLast? != pyIsWordOpt (((c :: cs').drop w.length).head?)))
                  = false := by
              by_cases hpre : w.isPrefixOf (c :: cs') = true
              · have hwu : w <+: List.takeWhile pyIsWord (c :: cs') :=
                  prefix_takeWhile pyIsWord w (c :: cs') hall
                    (List.isPrefixOf_iff_prefix.mp hpre)
                obtain ⟨u', hu'⟩ := hwu
                have hu'ne : u' ≠ [] := by
                  intro h0
                  apply hu
                  rw [← hu', h0, List.append_nil]
                have hdropw : (c :: cs').drop w.length
                    = u' ++ List.dropWhile pyIsWord (c :: cs') := by
                  conv_lhs => rw [← hsplit, ← hu', List.append_assoc]
                  exact List.drop_left _ _
                have h4 : (pyIsWordOpt w.getLast?
                    != pyIsWordOpt (((c :: cs').drop w.length).head?)) = false := by
                  rw [getLastOpt_word w hw hall, hdropw]
                  cases u' with
                  | nil => exact absurd rfl hu'ne
                  | cons d u'' =>
                    have hdword : pyIsWord d = true := by
                      have hdmem : d ∈ List.takeWhile pyIsWord (c :: cs') := by
                        rw [← hu']
                        exact List.mem_append_right _ (by simp)
                      exact List.all_eq_true.mp List.all_takeWhile d hdmem
                    simp [pyIsWordOpt, hdword]
                rw [h4]
                simp
              · have hpf : w.isPrefixOf (c :: cs') = false := by
                  cases hb : w.isPrefixOf (c :: cs') with
                  | false => rfl
                  | true => exact absurd hb hpre
                rw [hpf]
                simp
            simp only [subLitGo, hcond, Bool.false_eq_true, if_false]
            rw [mapRuns_cons_run _ c cs' hc, if_neg hu]
            have hcs' : cs' = List.takeWhile pyIsWord cs' ++ List.dropWhile pyIsWord (c :: cs') := by
              rw [List.dropWhile_cons_of_pos hc]
              exact (List.takeWhile_append_dropWhile pyIsWord cs').symm
            have htw_len : (List.takeWhile pyIsWord cs').length ≤ cs'.length :=
              (List.takeWhile_sublist pyIsWord).length_le
            have hcs'_len : cs'.length = (List.takeWhile pyIsWord cs').length
                + (List.dropWhile pyIsWord (c :: cs')).length := by
              conv_lhs => rw [hcs']
              exact List.length_append _ _
            have hFsplit : (List.takeWhile pyIsWord cs').length
                + (F - (List.takeWhile pyIsWord cs').length) = F := by
              have : cs'.length < F := by
                simpa using Nat.lt_of_succ_lt_succ hfuel
              omega
            conv_lhs => rw [hcs', ← hFsplit]
            rw [subLit_walk w r (headOpt_word w hw hall) (List.takeWhile pyIsWord cs') _ _
              (some c) List.all_takeWhile (by simpa [pyIsWordOpt] using hc)]
            rw [ihF (F - (List.takeWhile pyIsWord cs').length)
              (by omega) _ _
              (by
                have : cs'.length < F := by
                  simpa using Nat.lt_of_succ_lt_succ hfuel
                omega)
              (hrestH _)]
            rw [huc]
            simp
        · -- separator character: copied through verbatim
          have hpf : w.isPrefixOf (c :: cs') = false := by
            cases hb : w.isPrefixOf (c :: cs') with
            | false => rfl
            | true =>
              exfalso
              obtain ⟨t, ht⟩ := List.isPrefixOf_iff_prefix.mp hb
              cases w with
              | nil => exact hw rfl
              | cons whd wtl =>
                have hhd : whd = c := by
                  have := congrArg List.head? ht
                  simpa using this
                simp only [List.all_cons, Bool.and_eq_true] at hall
                rw [hhd] at hall
                exact absurd hall.1 (by simp [hc])
          have hcond : (!w.isEmpty && w.isPrefixOf (c :: cs')
              && (pyIsWordOpt prev != pyIsWordOpt w.head?)
              && (pyIsWordOpt w.getLast? != pyIsWordOpt (((c :: cs').drop w.length).head?)))
                = false := by
            rw [hpf]
            simp
          simp only [subLitGo, hcond, Bool.false_eq_true, if_false]
          rw [mapRuns_cons_sep _ c cs' (by simpa using hc)]
          congr 1
          refine ihF F (by omega) cs' (some c) (by simpa using Nat.lt_of_succ_lt_succ hfuel) ?_
          simp [pyIsWordOpt, hc]

theorem mapRuns_headNonword (f : List Char → List Char) (cs : List Char)
    (h : ∀ x, cs.head? = some x → pyIsWord x = false) :
    ∀ x, (mapRuns f cs).head? = some x → pyIsWord x = false := by
  cases cs with
  | nil =>
    rw [mapRuns_nil]
    exact h
  | cons c cs' =>
    have hc : pyIsWord c = false := h c rfl
    rw [mapRuns_cons_sep f c cs' hc]
    intro x hx
    simp only [List.head?_cons, Option.some.injEq] at hx
    rw [← hx]
    exact hc

theorem mapRuns_run_append (g : List Char → List Char) (v M : List Char)
    (hv : v ≠ []) (hvall : v.all pyIsWord = true)
    (hM : ∀ x, M.head? = some x → pyIsWord x = false) :
    mapRuns g (v ++ M) = g v ++ mapRuns g M := by
  cases v with
  | nil => exact absurd rfl hv
  | cons c v' =>
    have hc : pyIsWord c = true := by
      simp only [List.all_cons, Bool.and_eq_true] at hvall
      exact hvall.1
    rw [List.cons_append, mapRuns_cons_run g c (v' ++ M) hc]
    have h1 := takeWhile_run_append pyIsWord (c :: v') M hvall hM
    simp only [List.cons_append] at h1
    rw [h1.1, h1.2]

theorem mapRuns_id : ∀ (n : Nat) (cs : List Char), cs.length ≤ n →
    mapRuns (fun u => u) cs = cs := by
  intro n
  induction n with
  | zero =>
    intro cs h
    match cs with
    | [] => exact mapRuns_nil _
  | succ n ih =>
    intro cs h
    cases cs with
    | nil => exact mapRuns_nil _
    | cons c cs' =>
      by_cases hc : pyIsWord c
      · rw [mapRuns_cons_run _ c cs' hc]
        have hlen : (List.dropWhile pyIsWord (c :: cs')).length ≤ n := by
          rw [List.dropWhile_cons_of_pos hc]
          have := (List.dropWhile_sublist (l := cs') pyIsWord).length_le
          simp only [List.length_cons] at h
          omega
        rw [ih _ hlen]
        exact List.takeWhile_append_dropWhile pyIsWord (c :: cs')
      · rw [mapRuns_cons_sep _ c cs' (by simpa using hc)]
        rw [ih cs' (by simp only [List.length_cons] at h; omega)]

theorem mapRuns_comp (f g : List Char → List Char)
    (hf : ∀ u, u ≠ [] → u.all pyIsWord = true → f u ≠ [] ∧ (f u).all pyIsWord = true) :
    ∀ (n : Nat) (cs : List Char), cs.length ≤ n →
      mapRuns g (mapRuns f cs) = mapRuns (fun u => g (f u)) cs := by
  intro n
  induction n with
  | zero =>
    intro cs h
    match cs with
    | [] => rw [mapRuns_nil, mapRuns_nil, mapRuns_nil]
  | succ n ih =>
    intro cs h
    cases cs with
    | nil => rw [mapRuns_nil, mapRuns_nil, mapRuns_nil]
    | cons c cs' =>
      by_cases hc : pyIsWord c
      · have huc : List.takeWhile pyIsWord (c :: cs') = c :: List.takeWhile pyIsWord cs' :=
          List.takeWhile_cons_of_pos hc
        have hune : List.takeWhile pyIsWord (c :: cs') ≠ [] := by
          rw [huc]
          exact List.cons_ne_nil _ _
        have hrest_head : ∀ x, (List.dropWhile pyIsWord (c :: cs')).head? = some x →
            pyIsWord x = false := dropWhile_head_not pyIsWord (c :: cs')
        have hlen : (List.dropWhile pyIsWord (c :: cs')).length ≤ n := by
          rw [List.dropWhile_cons_of_pos hc]
          have := (List.dropWhile_sublist (l := cs') pyIsWord).length_le
          simp only [List.length_cons] at h
          omega
        rw [mapRuns_cons_run f c cs' hc, mapRuns_cons_run _ c cs' hc]
        obtain ⟨hfne, hfall⟩ := hf _ hune List.all_takeWhile
        rw [mapRuns_run_append g _ _ hfne hfall
          (mapRuns_headNonword f _ hrest_head)]
        rw [ih _ hlen]
      · rw [mapRuns_cons_sep f c cs' (by simpa using hc),
          mapRuns_cons_sep g c (mapRuns f cs') (by simpa using hc),
          mapRuns_cons_sep _ c cs' (by simpa using hc)]
        rw [ih cs' (by simp only [List.length_cons] at h; omega)]

theorem mapRuns_congr (f f' : List Char → List Char)
    (h : ∀ u, u ≠ [] → u.all pyIsWord = true → f u = f' u) :
    ∀ (n : Nat) (cs : List Char), cs.length ≤ n → mapRuns f cs = mapRuns f' cs := by
  intro n
  induction n with
  | zero =>
    intro cs hl
    match cs with
    | [] => rw [mapRuns_nil, mapRuns_nil]
  | succ n ih =>
    intro cs hl
    cases cs with
    | nil => rw [mapRuns_nil, mapRuns_nil]
    | cons c cs' =>
      by_cases hc : pyIsWord c
      · have huc : List.takeWhile pyIsWord (c :: cs') = c :: List.takeWhile pyIsWord cs' :=
          List.takeWhile_cons_of_pos hc
        have hlen : (List.dropWhile pyIsWord (c :: cs')).length ≤ n := by
          rw [List.dropWhile_cons_of_pos hc]
          have := (List.dropWhile_sublist (l := cs') pyIsWord).length_le
          simp only [List.length_cons] at hl
          omega
        rw [mapRuns_cons_run f c cs' hc, mapRuns_cons_run f' c cs' hc]
        rw [h _ (by rw [huc]; exact List.cons_ne_nil _ _) List.all_takeWhile, ih _ hlen]
      · rw [mapRuns_cons_sep f c cs' (by simpa using hc),
          mapRuns_cons_sep f' c cs' (by simpa using hc),
          ih cs' (by simp only [List.length_cons] at hl; omega)]

theorem runStep_mem_or_value :
    ∀ (entries : List (String × String)) (u : List Char),
      runStep entries u = u ∨ ∃ e ∈ entries, runStep entries u = e.2.data := by
  intro entries
  induction entries with
  | nil => intro u; exact Or.inl rfl
  | cons e es ih =>
    intro u
    have hstep : runStep (e :: es) u
        = runStep es (if u = e.1.data then e.2.data else u) := rfl
    rw [hstep]
    by_cases hu : u = e.1.data
    · rw [if_pos hu]
      rcases ih e.2.data with h | ⟨e', he', h⟩
      · exact Or.inr ⟨e, by simp, h⟩
      · exact Or.inr ⟨e', List.mem_cons_of_mem _ he', h⟩
    · rw [if_neg hu]
      rcases ih u with h | ⟨e', he', h⟩
      · exact Or.inl h
      · exact Or.inr ⟨e', List.mem_cons_of_mem _ he', h⟩

theorem runStep_not_key :
    ∀ (entries : List (String × String)) (v : List Char),
      (∀ e ∈ entries, v ≠ e.1.data) → runStep entries v = v := by
  intro entries
  induction entries with
  | nil => intro v _; rfl
  | cons e es ih =>
    intro v hv
    have hstep : runStep (e :: es) v
        = runStep es (if v = e.1.data then e.2.data else v) := rfl
    rw [hstep, if_neg (hv e (by simp))]
    exact ih v fun e' he' => hv e' (List.mem_cons_of_mem _ he')

theorem runStep_idem (entries : List (String × String))
    (hvk : ∀ e ∈ entries, ∀ e' ∈ entries, e.2.data ≠ e'.1.data) :
    ∀ u, runStep entries (runStep entries u) = runStep entries u := by
  intro u
  rcases runStep_mem_or_value entries u with h | ⟨e, he, hval⟩
  · rw [h]
    exact h
  · rw [hval, runStep_not_key entries e.2.data fun e' he' => hvk e he e' he']

theorem runStep_preserves (entries : List (String × String))
    (hws : ∀ e ∈ entries, e.1.data ≠ [] ∧ e.1.data.all pyIsWord = true
        ∧ e.2.data ≠ [] ∧ e.2.data.all pyIsWord = true) :
    ∀ u, u ≠ [] → u.all pyIsWord = true →
      runStep entries u ≠ [] ∧ (runStep entries u).all pyIsWord = true := by
  intro u hne hall
  rcases runStep_mem_or_value entries u with h | ⟨e, he, hval⟩
  · rw [h]
    exact ⟨hne, hall⟩
  · rw [hval]
    exact ⟨(hws e he).2.2.1, (hws e he).2.2.2⟩

theorem foldl_pySubWord_data (entries : List (String × String))
    (hws : ∀ e ∈ entries, e.1.data ≠ [] ∧ e.1.data.all pyIsWord = true
        ∧ e.2.data ≠ [] ∧ e.2.data.all pyIsWord = true) :
    ∀ t : String,
      (entries.foldl (fun t wr => pySubWord wr.1 wr.2 t) t).data
        = mapRuns (runStep entries) t.data := by
  induction entries with
  | nil =>
    intro t
    exact (mapRuns_id t.data.length t.data le_rfl).symm
  | cons e es ih =>
    intro t
    simp only [List.foldl_cons]
    rw [ih fun e' he' => hws e' (List.mem_cons_of_mem _ he')]
    have he := hws e (by simp)
    have hsub : (pySubWord e.1 e.2 t).data
        = mapRuns (fun u => if u = e.1.data then e.2.data else u) t.data := by
      show pySubWordData e.1.data e.2.data t.data = _
      unfold pySubWordData
      exact subLit_mapRuns e.1.data e.2.data he.1 he.2.1 _ _ none (by omega)
        (by simp [pyIsWordOpt])
    rw [hsub]
    rw [mapRuns_comp (fun u => if u = e.1.data then e.2.data else u) (runStep es)
      (fun u hu hua => by
        show (if u = e.1.data then e.2.data else u) ≠ [] ∧
          (if u = e.1.data then e.2.data else u).all pyIsWord = true
        split
        · exact ⟨he.2.2.1, he.2.2.2⟩
        · exact ⟨hu, hua⟩)
      t.data.length t.data le_rfl]
    exact mapRuns_congr _ _ (fun u _ _ => rfl) t.data.length t.data le_rfl

/-- C3 (counterexample): the rule set `{"a" -> "c", "b" -> "a c"}` has
values (`"c"`, `"a c"`) that are not themselves keys, and empty
`pattern_fixes`, yet applying the Correction Applicator twice to `"b"`
differs from applying it once: one application yields `"a c"` (whose new
word `a` is a key), two yield `"c c"`. -/
theorem applyLearnedCorrections_not_idempotent :
    applyLearnedCorrections c3Rules "b" = Except.ok "a c" ∧
    applyLearnedCorrections c3Rules "a c" = Except.ok "c c" ∧
    ("a c" : String) ≠ "c c" :=
  ⟨rfl, rfl, by decide⟩

/-- C3 (amended): the Correction Applicator is idempotent for every rule
set with empty `pattern_fixes` whose word-replacement keys and values are
nonempty words of word characters (letters, digits, underscore) and whose
values are not keys — no replacement can then create a fresh whole-word
occurrence of a key, so a second pass finds nothing to rewrite. -/
theorem applyLearnedCorrections_idempotent (lc : Corrections) (t u : String)
    (hpf : lc.pattern_fixes = [])
    (hwords : ∀ e ∈ lc.word_replacements,
      e.1.data ≠ [] ∧ e.1.data.all pyIsWord = true
        ∧ e.2.data ≠ [] ∧ e.2.data.all pyIsWord = true)
    (hvk : ∀ e ∈ lc.word_replacements, ∀ e' ∈ lc.word_replacements, e.2 ≠ e'.1)
    (h : applyLearnedCorrections lc t = Except.ok u) :
    applyLearnedCorrections lc u = Except.ok u := by
  unfold applyLearnedCorrections at h ⊢
  rw [hpf] at h ⊢
  simp only [List.foldlM_nil] at h ⊢
  have hu : u = lc.word_replacements.foldl (fun t wr => pySubWord wr.1 wr.2 t) t := by
    cases h
    rfl
  subst hu
  have hvk' : ∀ e ∈ lc.word_replacements, ∀ e' ∈ lc.word_replacements,
      e.2.data ≠ e'.1.data := by
    intro e he e' he' hdata
    apply hvk e he e' he'
    have := congrArg String.mk hdata
    simpa using this
  have hdata : (lc.word_replacements.foldl (fun t wr => pySubWord wr.1 wr.2 t)
      (lc.word_replacements.foldl (fun t wr => pySubWord wr.1 wr.2 t) t)).data
      = (lc.word_replacements.foldl (fun t wr => pySubWord wr.1 wr.2 t) t).data := by
    rw [foldl_pySubWord_data _ hwords, foldl_pySubWord_data _ hwords]
    rw [mapRuns_comp (runStep lc.word_replacements) (runStep lc.word_replacements)
      (runStep_preserves _ hwords) t.data.length t.data le_rfl]
    exact mapRuns_congr _ _ (fun u _ _ => runStep_idem _ hvk' u)
      t.data.length t.data le_rfl
  have hstr : lc.word_replacements.foldl (fun t wr => pySubWord wr.1 wr.2 t)
      (lc.word_replacements.foldl (fun t wr => pySubWord wr.1 wr.2 t) t)
      = lc.word_replacements.foldl (fun t wr => pySubWord wr.1 wr.2 t) t := by
    have := congrArg String.mk hdata
    simpa using this
  rw [hstr]
  rfl

/-- Witness for `applyLearnedCorrections_idempotent` on the rule set
`{"teh" -> "the"}` and the text `"teh cat"`. -/
theorem applyLearnedCorrections_idempotent_witness :
    idemRules.pattern_fixes = [] ∧
    (∀ e ∈ idemRules.word_replacements,
      e.1.data ≠ [] ∧ e.1.data.all pyIsWord = true
        ∧ e.2.data ≠ [] ∧ e.2.data.all pyIsWord = true) ∧
    (∀ e ∈ idemRules.word_replacements, ∀ e' ∈ idemRules.word_replacements, e.2 ≠ e'.1) ∧
    applyLearnedCorrections idemRules "teh cat" = Except.ok "the cat" ∧
    applyLearnedCorrections idemRules "the cat" = Except.ok "the cat" :=
  ⟨rfl, by decide, by decide, by decide,
    applyLearnedCorrections_idempotent idemRules "teh cat" "the cat" rfl (by decide)
      (by decide) (by decide)⟩

/-! ## C5: the extractor on single-substitution samples

For token sequences `p ++ x :: s` and `p ++ y :: s` with `x ≠ y`, `x` not
among the corrected tokens and `y` not among the OCR tokens, no matching
block can straddle the substituted position, so the longest match is the
common prefix or the common suffix, and the opcodes come out as
`equal / replace / equal`. -/

theorem findSome?_range'_first {β : Type} (f : Nat → Option β) :
    ∀ (len st t : Nat), t < len → (∀ k, k < t → f (st + k) = none) →
      f (st + t) ≠ none →
      (List.range' st len).findSome? f = f (st + t) := by
  intro len
  induction len with
  | zero => omega
  | succ len ih =>
    intro st t ht hnone hsome
    rw [show List.range' st (len + 1) = st :: List.range' (st + 1) len from rfl,
      List.findSome?_cons]
    cases t with
    | zero =>
      simp only [Nat.add_zero] at hsome ⊢
      cases hf : f st with
      | none => exact absurd hf hsome
      | some b => rfl
    | succ t' =>
      have h0 : f st = none := by
        have := hnone 0 (by omega)
        simpa using this
      rw [h0]
      have hres := ih (st + 1) t' (by omega)
        (fun k hk => by
          rw [show st + 1 + k = st + (k + 1) from by omega]
          exact hnone (k + 1) (by omega))
        (by
          rw [show st + 1 + t' = st + (t' + 1) from by omega]
          exact hsome)
      rw [hres, show st + 1 + t' = st + (t' + 1) from by omega]

theorem findSome?_range_first {β : Type} (f : Nat → Option β) (n t : Nat)
    (ht : t < n) (hnone : ∀ k, k < t → f k = none) (hsome : f t ≠ none) :
    (List.range n).findSome? f = f t := by
  rw [List.range_eq_range' n]
  have := findSome?_range'_first f n 0 t ht (fun k hk => by simpa using hnone k hk)
    (by simpa using hsome)
  simpa using this

theorem slice_subset {α : Type} (l : List α) (i n : Nat) : (l.drop i).take n ⊆ l :=
  fun _ hx => List.drop_subset i l (List.take_subset n _ hx)

theorem mem_slice {α : Type} (l : List α) (i n k : Nat) (z : α)
    (h1 : i ≤ k) (h2 : k < i + n) (hz : l[k]? = some z) :
    z ∈ (l.drop i).take n := by
  have hidx : ((l.drop i).take n)[k - i]? = some z := by
    rw [List.getElem?_take_of_lt (by omega), List.getElem?_drop,
      show i + (k - i) = k from by omega]
    exact hz
  exact List.getElem?_mem hidx

theorem getElem?_append_mid {α : Type} (p s : List α) (x : α) :
    (p ++ x :: s)[p.length]? = some x := by
  rw [List.getElem?_append_right (le_refl _)]
  simp

/-- Components of a true `runOk`. -/
theorem runOk_parts {α : Type} [DecidableEq α] {junk : α → Bool} {a b : List α}
    {i j n : Nat} (h : runOk junk a b i j n = true) :
    i + n ≤ a.length ∧ j + n ≤ b.length ∧ (a.drop i).take n = (b.drop j).take n := by
  simp only [runOk, Bool.and_eq_true, decide_eq_true_eq] at h
  exact ⟨h.1.1.1, h.1.1.2, h.1.2⟩

/-- A matching block's `a`-window cannot contain the substituted position:
the OCR token there does not occur among the corrected tokens. -/
theorem runOk_avoid_a {junk : String → Bool} {p s : List String} {x y : String}
    (hxb : x ∉ p ++ y :: s) {i j n : Nat} (hn : 1 ≤ n)
    (hok : runOk junk (p ++ x :: s) (p ++ y :: s) i j n = true) :
    i + n ≤ p.length ∨ p.length + 1 ≤ i := by
  by_contra hcon
  push_neg at hcon
  obtain ⟨_, _, hslice⟩ := runOk_parts hok
  have hxa : x ∈ ((p ++ x :: s).drop i).take n :=
    mem_slice _ i n p.length x (by omega) (by omega) (getElem?_append_mid p s x)
  rw [hslice] at hxa
  exact hxb (slice_subset _ j n hxa)

/-- Symmetrically, the `b`-window cannot contain the substituted position. -/
theorem runOk_avoid_b {junk : String → Bool} {p s : List String} {x y : String}
    (hya : y ∉ p ++ x :: s) {i j n : Nat} (hn : 1 ≤ n)
    (hok : runOk junk (p ++ x :: s) (p ++ y :: s) i j n = true) :
    j + n ≤ p.length ∨ p.length + 1 ≤ j := by
  by_contra hcon
  push_neg at hcon
  obtain ⟨_, _, hslice⟩ := runOk_parts hok
  have hyb : y ∈ ((p ++ y :: s).drop j).take n :=
    mem_slice _ j n p.length y (by omega) (by omega) (getElem?_append_mid p s y)
  rw [← hslice] at hyb
  exact hya (slice_subset _ i n hyb)

/-- Size bound: every nonempty matching block fits inside the common
prefix or the common suffix. -/
theorem runOk_size_le {junk : String → Bool} {p s : List String} {x y : String}
    (hxb : x ∉ p ++ y :: s) {i j n : Nat} (hn : 1 ≤ n)
    (hok : runOk junk (p ++ x :: s) (p ++ y :: s) i j n = true) :
    n ≤ max p.length s.length := by
  obtain ⟨hia, _, _⟩ := runOk_parts hok
  have hlen : (p ++ x :: s).length = p.length + 1 + s.length := by
    simp [List.length_append]
    omega
  rcases runOk_avoid_a hxb hn hok with h | h
  · omega
  · omega

theorem runOk_left {junk : String → Bool} (hjunk : ∀ z, junk z = false)
    (p s : List String) (x y : String) :
    runOk junk (p ++ x :: s) (p ++ y :: s) 0 0 p.length = true := by
  simp only [runOk, Bool.and_eq_true, decide_eq_true_eq]
  refine ⟨⟨⟨by first | (simp; omega) | simp, by first | (simp; omega) | simp⟩, ?_⟩, ?_⟩
  · simp only [List.drop_zero]
    rw [List.take_left' rfl, List.take_left' rfl]
  · rw [List.all_eq_true]
    intro z _
    simp [hjunk z]

theorem runOk_suffix {junk : String → Bool} (hjunk : ∀ z, junk z = false)
    (p s : List String) (x y : String) :
    runOk junk (p ++ x :: s) (p ++ y :: s) (p.length + 1) (p.length + 1) s.length
      = true := by
  have hda : (p ++ x :: s).drop (p.length + 1) = s := by
    rw [show p ++ x :: s = (p ++ [x]) ++ s by simp, List.drop_left' (by simp)]
  have hdb : (p ++ y :: s).drop (p.length + 1) = s := by
    rw [show p ++ y :: s = (p ++ [y]) ++ s by simp, List.drop_left' (by simp)]
  simp only [runOk, Bool.and_eq_true, decide_eq_true_eq]
  refine ⟨⟨⟨by first | (simp; omega) | simp, by first | (simp; omega) | simp⟩, ?_⟩, ?_⟩
  · rw [hda, hdb]
  · rw [List.all_eq_true]
    intro z _
    simp [hjunk z]

theorem findAtSize_none {α : Type} [DecidableEq α] (junk : α → Bool) (a b : List α)
    (s0 : Nat) (h : ∀ i j, runOk junk a b i j s0 = false) :
    findAtSize junk a b s0 = none := by
  unfold findAtSize
  rw [List.findSome?_eq_none_iff]
  intro i _
  rw [List.findSome?_eq_none_iff]
  intro j _
  rw [h i j]
  rfl

theorem findAtSize_first {α : Type} [DecidableEq α] (junk : α → Bool) (a b : List α)
    (s0 i0 j0 : Nat) (hi0 : i0 < a.length + 1) (hj0 : j0 < b.length + 1)
    (hhit : runOk junk a b i0 j0 s0 = true)
    (hrow : ∀ i, i < i0 → ∀ j, runOk junk a b i j s0 = false)
    (hcol : ∀ j, j < j0 → runOk junk a b i0 j s0 = false) :
    findAtSize junk a b s0 = some (i0, j0) := by
  unfold findAtSize
  have hfi0 : (List.range (b.length + 1)).findSome?
      (fun j => if runOk junk a b i0 j s0 = true then some (i0, j) else none)
        = some (i0, j0) := by
    have := findSome?_range_first
      (fun j => if runOk junk a b i0 j s0 = true then some (i0, j) else none)
      (b.length + 1) j0 hj0
      (fun k hk => by
        show (if runOk junk a b i0 k s0 = true then some (i0, k) else none) = none
        rw [hcol k hk]
        rfl)
      (by
        show (if runOk junk a b i0 j0 s0 = true then some (i0, j0) else none) ≠ none
        rw [hhit]
        simp)
    rw [this]
    show (if runOk junk a b i0 j0 s0 = true then some (i0, j0) else none) = some (i0, j0)
    rw [hhit]
    rfl
  have := findSome?_range_first
    (fun i => (List.range (b.length + 1)).findSome?
      (fun j => if runOk junk a b i j s0 = true then some (i, j) else none))
    (a.length + 1) i0 hi0
    (fun k hk => by
      show (List.range (b.length + 1)).findSome?
        (fun j => if runOk junk a b k j s0 = true then some (k, j) else none) = none
      rw [List.findSome?_eq_none_iff]
      intro j _
      show (if runOk junk a b k j s0 = true then some (k, j) else none) = none
      rw [hrow k hk j]
      rfl)
    (by
      show (List.range (b.length + 1)).findSome?
        (fun j => if runOk junk a b i0 j s0 = true then some (i0, j) else none) ≠ none
      rw [hfi0]
      simp)
  rw [this]
  exact hfi0

theorem findCore_eq {α : Type} [DecidableEq α] (junk : α → Bool) (a b : List α)
    (s0 i0 j0 : Nat) (hs0 : 1 ≤ s0) (hsmax : s0 ≤ min a.length b.length)
    (hnone : ∀ n, s0 < n → n ≤ min a.length b.length → findAtSize junk a b n = none)
    (hfind : findAtSize junk a b s0 = some (i0, j0)) :
    findCore junk a b = (i0, j0, s0) := by
  unfold findCore
  have happ : (fun k => (findAtSize junk a b (min a.length b.length - k)).map
      fun ij => (ij.1, ij.2, min a.length b.length - k)) (min a.length b.length - s0)
        = some (i0, j0, s0) := by
    show (findAtSize junk a b
        (min a.length b.length - (min a.length b.length - s0))).map
      (fun ij => (ij.1, ij.2, min a.length b.length - (min a.length b.length - s0)))
        = some (i0, j0, s0)
    rw [show min a.length b.length - (min a.length b.length - s0) = s0 from by omega,
      hfind]
    rfl
  have hres := findSome?_range_first
    (fun k => (findAtSize junk a b (min a.length b.length - k)).map
      fun ij => (ij.1, ij.2, min a.length b.length - k))
    (min a.length b.length) (min a.length b.length - s0) (by omega)
    (fun k hk => by
      show (findAtSize junk a b (min a.length b.length - k)).map
        (fun ij => (ij.1, ij.2, min a.length b.length - k)) = none
      rw [hnone (min a.length b.length - k) (by omega) (by omega)]
      rfl)
    (by rw [happ]; simp)
  rw [hres, happ]

theorem findCore_none {α : Type} [DecidableEq α] (junk : α → Bool) (a b : List α)
    (h : ∀ n, 1 ≤ n → n ≤ min a.length b.length → findAtSize junk a b n = none) :
    findCore junk a b = (0, 0, 0) := by
  unfold findCore
  have hnone : (List.range (min a.length b.length)).findSome?
      (fun k => (findAtSize junk a b (min a.length b.length - k)).map
        fun ij => (ij.1, ij.2, min a.length b.length - k)) = none := by
    rw [List.findSome?_eq_none_iff]
    intro k hk
    rw [List.mem_range] at hk
    show (findAtSize junk a b (min a.length b.length - k)).map
      (fun ij => (ij.1, ij.2, min a.length b.length - k)) = none
    rw [h (min a.length b.length - k) (by omega) (by omega)]
    rfl
  rw [hnone]

theorem findCore_case1 (junk : String → Bool) (hjunk : ∀ z, junk z = false)
    (p s : List String) (x y : String) (hxb : x ∉ p ++ y :: s)
    (hP1 : 1 ≤ p.length) (hPS : s.length ≤ p.length) :
    findCore junk (p ++ x :: s) (p ++ y :: s) = (0, 0, p.length) := by
  have hla : (p ++ x :: s).length = p.length + 1 + s.length := by
    simp only [List.length_append, List.length_cons]
    omega
  have hlb : (p ++ y :: s).length = p.length + 1 + s.length := by
    simp only [List.length_append, List.length_cons]
    omega
  apply findCore_eq junk _ _ p.length 0 0 hP1 (by rw [hla, hlb]; omega)
  · intro n hn hnmax
    apply findAtSize_none
    intro i j
    cases hr : runOk junk (p ++ x :: s) (p ++ y :: s) i j n with
    | false => rfl
    | true =>
      exfalso
      have := runOk_size_le hxb (by omega) hr
      omega
  · exact findAtSize_first junk _ _ p.length 0 0 (by omega) (by omega)
      (runOk_left hjunk p s x y)
      (fun i hi => absurd hi (Nat.not_lt_zero i))
      (fun j hj => absurd hj (Nat.not_lt_zero j))

theorem findCore_case2 (junk : String → Bool) (hjunk : ∀ z, junk z = false)
    (p s : List String) (x y : String) (hxb : x ∉ p ++ y :: s) (hya : y ∉ p ++ x :: s)
    (hSP : p.length < s.length) :
    findCore junk (p ++ x :: s) (p ++ y :: s)
      = (p.length + 1, p.length + 1, s.length) := by
  have hla : (p ++ x :: s).length = p.length + 1 + s.length := by
    simp only [List.length_append, List.length_cons]
    omega
  have hlb : (p ++ y :: s).length = p.length + 1 + s.length := by
    simp only [List.length_append, List.length_cons]
    omega
  apply findCore_eq junk _ _ s.length (p.length + 1) (p.length + 1) (by omega)
    (by rw [hla, hlb]; omega)
  · intro n hn hnmax
    apply findAtSize_none
    intro i j
    cases hr : runOk junk (p ++ x :: s) (p ++ y :: s) i j n with
    | false => rfl
    | true =>
      exfalso
      have := runOk_size_le hxb (by omega) hr
      omega
  · apply findAtSize_first junk _ _ s.length (p.length + 1) (p.length + 1)
      (by omega) (by omega) (runOk_suffix hjunk p s x y)
    · intro i hi j
      cases hr : runOk junk (p ++ x :: s) (p ++ y :: s) i j s.length with
      | false => rfl
      | true =>
        exfalso
        rcases runOk_avoid_a hxb (by omega) hr with h | h <;> omega
    · intro j hj
      cases hr : runOk junk (p ++ x :: s) (p ++ y :: s) (p.length + 1) j s.length with
      | false => rfl
      | true =>
        exfalso
        rcases runOk_avoid_b hya (by omega) hr with h | h <;> omega

theorem extendLeft_zero_i {α : Type} [DecidableEq α] (a b : List α) :
    ∀ (fuel j s : Nat), extendLeft a b fuel (0, j, s) = (0, j, s) := by
  intro fuel j s
  cases fuel with
  | zero => rfl
  | succ f => simp [extendLeft]

theorem extendLeft_of_ne {α : Type} [DecidableEq α] (a b : List α)
    (fuel i j s : Nat) (u v : α) (ha : a[i - 1]? = some u) (hb : b[j - 1]? = some v)
    (huv : u ≠ v) : extendLeft a b fuel (i, j, s) = (i, j, s) := by
  cases fuel with
  | zero => rfl
  | succ f =>
    simp only [extendLeft]
    split
    · rw [ha, hb]
      simp [huv]
    · rfl

theorem extendRight_of_ne {α : Type} [DecidableEq α] (a b : List α)
    (fuel i j s : Nat) (u v : α) (ha : a[i + s]? = some u) (hb : b[j + s]? = some v)
    (huv : u ≠ v) : extendRight a b fuel (i, j, s) = (i, j, s) := by
  cases fuel with
  | zero => rfl
  | succ f =>
    simp only [extendRight]
    rw [ha, hb]
    simp [huv]

theorem extendRight_oob {α : Type} [DecidableEq α] (a b : List α)
    (fuel i j s : Nat) (ha : a[i + s]? = none) :
    extendRight a b fuel (i, j, s) = (i, j, s) := by
  cases fuel with
  | zero => rfl
  | succ f =>
    simp only [extendRight]
    rw [ha]

theorem flm_nil (junk : String → Bool) :
    findLongestMatch junk ([] : List String) [] = (0, 0, 0) := by
  unfold findLongestMatch
  rw [findCore_none junk _ _ (fun n h1 h2 => by simp at h2; omega)]
  rw [extendLeft_zero_i]
  exact extendRight_oob _ _ _ _ _ _ rfl

theorem runOk_single_false (junk : String → Bool) (x y : String) (hxy : x ≠ y) :
    ∀ i j, runOk junk [x] [y] i j 1 = false := by
  intro i j
  rcases Nat.eq_zero_or_pos i with hi | hi
  · rcases Nat.eq_zero_or_pos j with hj | hj
    · subst hi hj
      simp [runOk, hxy]
    · have : ¬(j + 1 ≤ 1) := by omega
      simp [runOk, this]
  · have : ¬(i + 1 ≤ 1) := by omega
    simp [runOk, this]

theorem flm_single (junk : String → Bool) (x y : String) (hxy : x ≠ y) :
    findLongestMatch junk [x] [y] = (0, 0, 0) := by
  unfold findLongestMatch
  rw [findCore_none junk _ _ (fun n h1 h2 => by
    simp only [List.length_singleton, min_self] at h2
    have hn1 : n = 1 := by omega
    subst hn1
    exact findAtSize_none junk _ _ 1 (runOk_single_false junk x y hxy))]
  rw [extendLeft_zero_i]
  exact extendRight_of_ne _ _ _ _ _ _ x y (by simp) (by simp) hxy

theorem flm_case1 (junk : String → Bool) (hjunk : ∀ z, junk z = false)
    (p s : List String) (x y : String) (hxy : x ≠ y) (hxb : x ∉ p ++ y :: s)
    (hP1 : 1 ≤ p.length) (hPS : s.length ≤ p.length) :
    findLongestMatch junk (p ++ x :: s) (p ++ y :: s) = (0, 0, p.length) := by
  unfold findLongestMatch
  rw [findCore_case1 junk hjunk p s x y hxb hP1 hPS, extendLeft_zero_i]
  exact extendRight_of_ne _ _ _ _ _ _ x y
    (by simpa using getElem?_append_mid p s x)
    (by simpa using getElem?_append_mid p s y) hxy

theorem flm_case2 (junk : String → Bool) (hjunk : ∀ z, junk z = false)
    (p s : List String) (x y : String) (hxy : x ≠ y) (hxb : x ∉ p ++ y :: s)
    (hya : y ∉ p ++ x :: s) (hSP : p.length < s.length) :
    findLongestMatch junk (p ++ x :: s) (p ++ y :: s)
      = (p.length + 1, p.length + 1, s.length) := by
  unfold findLongestMatch
  rw [findCore_case2 junk hjunk p s x y hxb hya hSP]
  rw [extendLeft_of_ne _ _ _ _ _ _ x y
    (by simpa using getElem?_append_mid p s x)
    (by simpa using getElem?_append_mid p s y) hxy]
  refine extendRight_oob _ _ _ _ _ _ ?_
  apply List.getElem?_eq_none
  simp only [List.length_append, List.length_cons]
  omega

theorem blocks_nil (junk : String → Bool) :
    ∀ fuel, matchingBlocksGo junk fuel ([] : List String) [] = [] := by
  intro fuel
  cases fuel with
  | zero => rfl
  | succ f =>
    rw [matchingBlocksGo, flm_nil]
    simp

theorem blocks_single (junk : String → Bool) (x y : String) (hxy : x ≠ y) :
    ∀ fuel, matchingBlocksGo junk fuel [x] [y] = [] := by
  intro fuel
  cases fuel with
  | zero => rfl
  | succ f =>
    rw [matchingBlocksGo, flm_single junk x y hxy]
    simp

theorem blocks_caseB (junk : String → Bool) (hjunk : ∀ z, junk z = false)
    (s : List String) (x y : String) (hxy : x ≠ y)
    (hxb : x ∉ y :: s) (hya : y ∉ x :: s) :
    ∀ fuel, matchingBlocksGo junk (fuel + 1) (x :: s) (y :: s)
      = if 1 ≤ s.length then [(1, 1, s.length)] else [] := by
  intro fuel
  rcases Nat.eq_zero_or_pos s.length with hS | hS
  · have hs : s = [] := List.length_eq_zero.mp hS
    subst hs
    rw [blocks_single junk x y hxy (fuel + 1)]
    simp
  · have hS1 : 1 ≤ s.length := hS
    rw [if_pos hS1]
    have hflm := flm_case2 junk hjunk [] s x y hxy (by simpa using hxb)
      (by simpa using hya) (by simpa using hS)
    simp only [List.nil_append, List.length_nil, Nat.zero_add] at hflm
    rw [matchingBlocksGo]
    simp only [hflm]
    rw [if_neg (by omega)]
    rw [show (x :: s).take 1 = [x] from rfl, show (y :: s).take 1 = [y] from rfl]
    rw [show (1 : Nat) + s.length = s.length + 1 from by omega]
    rw [List.drop_succ_cons, List.drop_succ_cons, List.drop_length]
    rw [blocks_single junk x y hxy fuel, blocks_nil junk fuel]
    simp

theorem blocks_caseC (junk : String → Bool) (hjunk : ∀ z, junk z = false)
    (p : List String) (x y : String) (hxy : x ≠ y)
    (hxb : x ∉ p ++ [y]) (hya : y ∉ p ++ [x]) :
    ∀ fuel, matchingBlocksGo junk (fuel + 1) (p ++ [x]) (p ++ [y])
      = if 1 ≤ p.length then [(0, 0, p.length)] else [] := by
  intro fuel
  rcases Nat.eq_zero_or_pos p.length with hP | hP
  · have hp : p = [] := List.length_eq_zero.mp hP
    subst hp
    simp only [List.nil_append]
    rw [blocks_single junk x y hxy (fuel + 1)]
    simp
  · have hP1 : 1 ≤ p.length := hP
    rw [if_pos hP1]
    have hflm := flm_case1 junk hjunk p [] x y hxy (by simpa using hxb) hP (by simp)
    rw [matchingBlocksGo]
    simp only [hflm]
    rw [if_neg (by omega)]
    rw [List.take_zero, List.take_zero, blocks_nil junk fuel]
    simp only [Nat.zero_add]
    rw [List.drop_left' rfl, List.drop_left' rfl]
    rw [blocks_single junk x y hxy fuel]
    simp

theorem blocks_main (junk : String → Bool) (hjunk : ∀ z, junk z = false)
    (p s : List String) (x y : String) (hxy : x ≠ y)
    (hxb : x ∉ p ++ y :: s) (hya : y ∉ p ++ x :: s) :
    ∀ fuel, matchingBlocksGo junk (fuel + 2) (p ++ x :: s) (p ++ y :: s)
      = (if 1 ≤ p.length then [(0, 0, p.length)] else [])
        ++ (if 1 ≤ s.length then [(p.length + 1, p.length + 1, s.length)] else []) := by
  intro fuel
  rcases Nat.lt_or_ge p.length s.length with hSP | hPS
  · have hS1 : 1 ≤ s.length := by omega
    rw [if_pos hS1]
    have hflm := flm_case2 junk hjunk p s x y hxy hxb hya hSP
    rw [matchingBlocksGo]
    simp only [hflm]
    rw [if_neg (by omega)]
    have hta : (p ++ x :: s).take (p.length + 1) = p ++ [x] := by
      rw [show p ++ x :: s = (p ++ [x]) ++ s from by simp]
      exact List.take_left' (by simp)
    have htb : (p ++ y :: s).take (p.length + 1) = p ++ [y] := by
      rw [show p ++ y :: s = (p ++ [y]) ++ s from by simp]
      exact List.take_left' (by simp)
    have hda : (p ++ x :: s).drop (p.length + 1 + s.length) = [] := by
      apply List.drop_eq_nil_of_le
      simp only [List.length_append, List.length_cons]
      omega
    have hdb : (p ++ y :: s).drop (p.length + 1 + s.length) = [] := by
      apply List.drop_eq_nil_of_le
      simp only [List.length_append, List.length_cons]
      omega
    rw [hta, htb, hda, hdb]
    rw [blocks_caseC junk hjunk p x y hxy
      (by
        intro h
        rcases List.mem_append.mp h with h1 | h1
        · exact hxb (List.mem_append_left _ h1)
        · simp only [List.mem_singleton] at h1
          exact hxb (by simp [h1]))
      (by
        intro h
        rcases List.mem_append.mp h with h1 | h1
        · exact hya (List.mem_append_left _ h1)
        · simp only [List.mem_singleton] at h1
          exact hya (by simp [h1]))
      fuel]
    rw [blocks_nil junk (fuel + 1)]
    simp
  · rcases Nat.eq_zero_or_pos p.length with hP0 | hP1
    · have hS0 : s.length = 0 := by omega
      have hp : p = [] := List.length_eq_zero.mp hP0
      have hs : s = [] := List.length_eq_zero.mp hS0
      subst hp hs
      simp only [List.nil_append]
      rw [blocks_single junk x y hxy (fuel + 2)]
      simp
    · have hP1' : 1 ≤ p.length := hP1
      rw [if_pos hP1']
      have hflm := flm_case1 junk hjunk p s x y hxy hxb hP1 hPS
      rw [matchingBlocksGo]
      simp only [hflm]
      rw [if_neg (by omega)]
      rw [List.take_zero, List.take_zero, blocks_nil junk (fuel + 1)]
      simp only [Nat.zero_add]
      rw [List.drop_left' rfl, List.drop_left' rfl]
      rw [blocks_caseB junk hjunk s x y hxy
        (fun h => hxb (List.mem_append_right _ h))
        (fun h => hya (List.mem_append_right _ h)) fuel]
      rcases Nat.eq_zero_or_pos s.length with hS0 | hS1
      · rw [if_neg (by omega), if_neg (by omega)]
        simp
      · have hS1' : 1 ≤ s.length := hS1
        rw [if_pos hS1', if_pos hS1']
        simp only [List.map_cons, List.map_nil, List.nil_append, List.singleton_append,
          List.cons.injEq, Prod.mk.injEq, and_true, true_and]
        omega

theorem isPopular_short {α : Type} [DecidableEq α] (b : List α) (h : b.length < 200) :
    ∀ z, isPopular b z = false := by
  intro z
  unfold isPopular
  have : (b.length ≥ 200) = False := by simp; omega
  simp [this]

theorem opcodes_main (p s : List String) (x y : String) (hxy : x ≠ y)
    (hxb : x ∉ p ++ y :: s) (hya : y ∉ p ++ x :: s)
    (hlen : (p ++ y :: s).length < 200) :
    getOpcodes (p ++ x :: s) (p ++ y :: s)
      = (if 1 ≤ p.length then [(OpTag.equal, 0, p.length, 0, p.length)] else [])
        ++ [(OpTag.replace, p.length, p.length + 1, p.length, p.length + 1)]
        ++ (if 1 ≤ s.length then
              [(OpTag.equal, p.length + 1, p.length + 1 + s.length,
                p.length + 1, p.length + 1 + s.length)] else []) := by
  have hjunk := isPopular_short (p ++ y :: s) hlen
  unfold getOpcodes getMatchingBlocks
  have hfuel : (p ++ x :: s).length + (p ++ y :: s).length + 1
      = ((p ++ x :: s).length + (p ++ y :: s).length - 1) + 2 := by
    simp only [List.length_append, List.length_cons]
    omega
  rw [hfuel, blocks_main _ hjunk p s x y hxy hxb hya _]
  simp only [List.length_append, List.length_cons]
  rcases Nat.eq_zero_or_pos p.length with hP | hP <;>
    rcases Nat.eq_zero_or_pos s.length with hS | hS
  · rw [hP, hS]
    rw [if_neg (by omega), if_neg (by omega), if_neg (by omega), if_neg (by omega)]
    decide
  · have hS' : s.length ≠ 0 := by omega
    rw [hP]
    rw [if_neg (by omega), if_pos (by omega : 1 ≤ s.length),
      if_neg (by omega), if_pos (by omega : 1 ≤ s.length)]
    simp [mergeBlocksGo, getOpcodesGo, hS']
    rw [if_neg (by omega), if_neg (by omega), if_neg (by omega)]
  · have hP' : p.length ≠ 0 := by omega
    rw [hS]
    rw [if_pos (by omega : 1 ≤ p.length), if_neg (by omega),
      if_pos (by omega : 1 ≤ p.length), if_neg (by omega)]
    simp [mergeBlocksGo, getOpcodesGo, hP']
  · have hP' : p.length ≠ 0 := by omega
    have hS' : s.length ≠ 0 := by omega
    rw [if_pos (by omega : 1 ≤ p.length), if_pos (by omega : 1 ≤ s.length),
      if_pos (by omega : 1 ≤ p.length), if_pos (by omega : 1 ≤ s.length)]
    simp [mergeBlocksGo, getOpcodesGo, hP', hS']
    rw [if_neg (by omega), if_neg (by omega), if_neg (by omega)]

/-- C5: for a sample whose OCR and corrected token sequences differ by
exactly one word-level substitution `x ↦ y` — all other tokens equal in
order — the diff-based Extractor yields exactly the one observation
`(x, y)`, PROVIDED the substituted words do not also occur elsewhere in
the other sequence (so difflib cannot prefer a skewed alignment) and the
corrected sequence is short enough (< 200 tokens) for autojunk to be
inert.  Without the extra occurrence conditions the claim fails, see the
counterexample. -/
theorem extractor_single_substitution (smp : Sample) (p s : List String) (x y : String)
    (ha : pySplit smp.ocr_text = p ++ x :: s)
    (hb : pySplit smp.corrected_text = p ++ y :: s)
    (hxy : x ≠ y)
    (hxb : x ∉ p ++ y :: s) (hya : y ∉ p ++ x :: s)
    (hlen : (p ++ y :: s).length < 200) :
    extractObservations smp = [(x, y)] := by
  have hne : smp.ocr_text ≠ smp.corrected_text := by
    intro h
    rw [h, hb] at ha
    have h2 := List.append_cancel_left ha
    exact hxy (List.cons.injEq .. ▸ h2).1.symm
  have hda : (p ++ x :: s).drop p.length = x :: s := List.drop_left' rfl
  have hdb : (p ++ y :: s).drop p.length = y :: s := List.drop_left' rfl
  simp only [extractObservations, if_neg hne, ha, hb]
  rw [opcodes_main p s x y hxy hxb hya hlen]
  simp only [List.flatMap_append, List.flatMap_cons, List.flatMap_nil]
  split_ifs <;>
    simp [hda, hdb, Nat.add_sub_cancel_left, List.take_succ_cons]

/-- C5 counterexample: the sample with OCR tokens `["c", "a", "a"]` and
corrected tokens `["a", "a", "a"]` differs by exactly one word-level
substitution (`"c" ↦ "a"` at position 0, the rest equal in order), yet
the Extractor yields no observation at all: difflib aligns the OCR
suffix `["a", "a"]` with the corrected prefix, producing a delete and an
insert opcode instead of a replace. -/
theorem extractor_single_substitution_fails :
    pySplit skewSample.ocr_text = [] ++ "c" :: ["a", "a"]
      ∧ pySplit skewSample.corrected_text = [] ++ "a" :: ["a", "a"]
      ∧ ("c" : String) ≠ "a"
      ∧ extractObservations skewSample = []
      ∧ extractObservations skewSample ≠ [("c", "a")] := by
  refine ⟨by decide, by decide, by decide, by decide, by decide⟩

theorem extractor_single_substitution_witness :
    pySplit tehSample.ocr_text = [] ++ "teh" :: ["cat", "sat"]
      ∧ pySplit tehSample.corrected_text = [] ++ "the" :: ["cat", "sat"]
      ∧ extractObservations tehSample = [("teh", "the")] :=
  ⟨by decide, by decide,
    extractor_single_substitution tehSample [] ["cat", "sat"] "teh" "the"
      (by decide) (by decide) (by decide) (by decide) (by decide) (by decide)⟩
